import Mathlib

/-!
# A verification development for the DNS resolver in `DNSServer/server.py`

The Python source is embedded shallowly:

* Python `str` values are modelled as `List Char` (`PyStr`); the protocol data the
  program handles is ASCII, and the byte-level `encode`/`decode` conversions are
  modelled as partial functions that succeed exactly on ASCII data.
* Python `bytes` values are modelled as `List Nat` whose elements the `pack` models
  keep below 256; `struct.pack`/`struct.unpack` errors are modelled as `none`.
* Wall-clock time is an explicit integer parameter `now`; `time()` is never advanced
  inside a single modelled operation.
* Code paths on which the Python program raises an uncaught exception, blocks
  forever, or recurses without bound are modelled as `none` (or as running out of
  an explicit fuel argument where the source loops over data it also rewrites).
-/

/-- Python strings from the source are modelled as lists of characters. -/
abbrev PyStr := List Char

/-- The whitespace characters removed by Python `str.strip`. -/
def isPySpace (c : Char) : Bool :=
  c == ' ' || c == '\t' || c == '\n' || c == '\r' || c == '\x0b' || c == '\x0c'

/-- Python `str.strip`: drop whitespace from both ends. -/
def pyStrip (s : PyStr) : PyStr :=
  ((s.dropWhile isPySpace).reverse.dropWhile isPySpace).reverse

/-- Helper loop for `splitChar`, accumulating the current piece in reverse. -/
def splitCharAux (sep : Char) : List Char → List Char → List PyStr
  | acc, [] => [acc.reverse]
  | acc, c :: rest =>
    if c = sep then acc.reverse :: splitCharAux sep [] rest
    else splitCharAux sep (c :: acc) rest

/-- Python `s.split(sep)` for a one-character separator. -/
def splitChar (sep : Char) (s : PyStr) : List PyStr :=
  splitCharAux sep [] s

/-- Python `sep.join(parts)` for a one-character separator. -/
def joinChar (sep : Char) : List PyStr → PyStr
  | [] => []
  | [p] => p
  | p :: rest => p ++ sep :: joinChar sep rest

/-- Python `s.removesuffix(".")`: drop one trailing dot when present. -/
def removeSuffixDot (s : PyStr) : PyStr :=
  if s.getLast? = some '.' then s.dropLast else s

/-- Python `bytes.decode` as used by the source, modelled for ASCII data: the
    protocol text the program handles is ASCII, and non-ASCII bytes are modelled
    as a decode failure. -/
def asciiDecode (bs : List Nat) : Option PyStr :=
  if bs.all (fun b => b < 128) then some (bs.map Char.ofNat) else none

/-- Python `str.encode` as used by the source, modelled for ASCII data. -/
def asciiEncode (s : PyStr) : Option (List Nat) :=
  if s.all (fun c => c.toNat < 128) then some (s.map Char.toNat) else none

/-- `struct.pack("B", n)`: one byte; raises (none) outside the byte range. -/
def packB (n : Nat) : Option (List Nat) :=
  if n < 256 then some [n] else none

/-- `struct.pack("!H", n)`: two big-endian bytes. -/
def packH (n : Nat) : Option (List Nat) :=
  if n < 65536 then some [n / 256, n % 256] else none

/-- `struct.pack("!L", n)`: four big-endian bytes. -/
def packL (n : Nat) : Option (List Nat) :=
  if n < 4294967296 then
    some [n / 16777216, n / 65536 % 256, n / 256 % 256, n % 256]
  else none

/-- `struct.unpack("!H", bs)`: requires exactly two bytes. -/
def unpackH : List Nat → Option Nat
  | [a, b] => some (a * 256 + b)
  | _ => none

/-- `struct.unpack("!L", bs)`: requires exactly four bytes. -/
def unpackL : List Nat → Option Nat
  | [a, b, c, d] => some (((a * 256 + b) * 256 + c) * 256 + d)
  | _ => none

/-- First-match association-list lookup, the model of a Python dict access
    (insertion order preserved, first binding wins). -/
def assocGet {κ α : Type} [DecidableEq κ] : List (κ × α) → κ → Option α
  | [], _ => none
  | (k, v) :: rest, key => if k = key then some v else assocGet rest key

/-- Python dict item assignment: replace the binding in place when the key is
    present, append a new binding at the end otherwise. -/
def assocSet {κ α : Type} [DecidableEq κ] : List (κ × α) → κ → α → List (κ × α)
  | [], key, v => [(key, v)]
  | (k, w) :: rest, key, v =>
    if k = key then (k, v) :: rest else (k, w) :: assocSet rest key v

/-- One DNS resource record (class `Record`).  `recordType` is an `Option`
    because `Record.getType` can return Python `None` for an unknown type id. -/
structure Record where
  recordType : Option PyStr
  name : PyStr
  value : Option PyStr
  ttl : Int
  queriedAt : Int
deriving DecidableEq

/-- `Record.__init__`: the name is stripped of surrounding whitespace and
    `queriedAt` records the current time, which the embedding passes explicitly. -/
def Record.make (now : Int) (recordType : Option PyStr) (name : PyStr)
    (value : Option PyStr) (ttl : Int) : Record :=
  ⟨recordType, pyStrip name, value, ttl, now⟩

/-- `Record.expiry` and `Record.expired` folded together: a negative ttl never
    expires, otherwise the record expires once `queriedAt + ttl` lies in the past. -/
def Record.expired (now : Int) (r : Record) : Bool :=
  if r.ttl < 0 then false else decide (r.queriedAt + r.ttl < now)

/-- `Record.RECORD_TYPES`, written with string literals; the source dict lists the
    key `APL` twice with the same value, which a Python dict collapses to one entry. -/
def recordTypesStr : List (String × Nat) :=
  [("A", 1), ("AAAA", 28), ("AFSDB", 18), ("APL", 42), ("CAA", 257),
   ("CDNSKEY", 60), ("CDS", 59), ("CERT", 37), ("CNAME", 5), ("CSYNC", 62),
   ("DHCID", 49), ("DLV", 32769), ("DNAME", 39), ("DNSKEY", 48), ("DS", 43),
   ("EUI48", 108), ("EUI64", 109), ("HINFO", 13), ("HIP", 55), ("HTTPS", 65),
   ("IPSECKEY", 45), ("KEY", 25), ("KX", 36), ("LOC", 29), ("MX", 15),
   ("NAPTR", 35), ("NS", 2), ("NSEC", 47), ("NSEC3", 50), ("NSEC3PARAM", 51),
   ("OPENPGPKEY", 61), ("PTR", 12), ("RP", 17), ("RRSIG", 46), ("SIG", 24),
   ("SMIMEA", 53), ("SOA", 6), ("SRV", 33), ("SSHFP", 44), ("SVCB", 64),
   ("TA", 32768), ("TKEY", 249), ("TLSA", 52), ("TSIG", 250), ("TXT", 16),
   ("URI", 256), ("ZONEMD", 63),
   ("*", 255), ("AXFR", 252), ("IXFR", 251), ("OPT", 41),
   ("MD", 3), ("MF", 4), ("MAILA", 254), ("MB", 7), ("MG", 8), ("MR", 9),
   ("MINFO", 14), ("MAILB", 253), ("WKS", 11), ("NB", 32), ("NBSTAT", 33),
   ("NULL", 10), ("A6", 38), ("NXT", 30), ("X25", 19), ("ISDN", 20),
   ("RT", 21), ("NSAP", 22), ("NSAP-PTR", 23), ("PX", 26), ("EID", 31),
   ("NIMLOC", 32), ("ATMA", 34), ("SINK", 40), ("GPOS", 27), ("UINFO", 100),
   ("UID", 101), ("GID", 102), ("UNSPEC", 103), ("SPF", 99), ("NINFO", 56),
   ("RKEY", 57), ("TALINK", 58), ("NID", 104), ("L32", 105), ("L64", 106),
   ("LP", 107), ("DOA", 259)]

/-- `Record.RECORD_TYPES` over `PyStr` keys. -/
def RECORD_TYPES : List (PyStr × Nat) :=
  recordTypesStr.map (fun p => (p.1.toList, p.2))

/-- `Record.getType`: first type string carrying the given id, in dict order. -/
def getType (tid : Nat) : Option PyStr :=
  (RECORD_TYPES.find? (fun p => p.2 == tid)).map (fun p => p.1)

/-- `Record.convertRecordName` on one label: a length byte then the label text. -/
def encodeLabel (l : PyStr) : Option (List Nat) :=
  match packB l.length, asciiEncode l with
  | some len, some bs => some (len ++ bs)
  | _, _ => none

/-- `Record.convertRecordName`: every dot-separated label length-prefixed,
    terminated by a zero byte. -/
def convertRecordName (name : PyStr) : Option (List Nat) :=
  ((splitChar '.' name).mapM encodeLabel).map (fun parts => parts.flatten ++ [0])

/-- `Record.nameField`. -/
def Record.nameField (r : Record) : Option (List Nat) :=
  convertRecordName r.name

/-- `Record.typeField`: dict lookup of the type string (a `KeyError`, and a
    `None` record type, are failures), then pack as two bytes. -/
def Record.typeField (r : Record) : Option (List Nat) :=
  match r.recordType with
  | none => none
  | some t =>
    match assocGet RECORD_TYPES t with
    | none => none
    | some n => packH n

/-- `Record.classField`: always the two bytes of 1 (class IN). -/
def Record.classField : List Nat := [0, 1]

/-- `Record.question`: name, type and class fields concatenated. -/
def Record.question (r : Record) : Option (List Nat) :=
  match r.nameField, r.typeField with
  | some n, some t => some (n ++ t ++ Record.classField)
  | _, _ => none

/-- `Record.ttlField`: `pack("!L", ttl if ttl > 0 else 0x7FFFFFFF)`.  A ttl of
    2^32 or more makes `pack` raise, modelled as `none`. -/
def Record.ttlField (r : Record) : Option (List Nat) :=
  packL (if r.ttl > 0 then r.ttl else 2147483647).toNat

/-- The label-reading loop of `Record.nameFromRR`.  The source walks an index
    through `rr` accumulating one `label + "."` chunk per iteration; the model
    consumes the list and returns the number of bytes consumed together with the
    accumulated dot-terminated text.  A length byte with either of its top two
    bits set is a compression pointer; its low 14 bits index into the full
    message `msg`, from which decoding recurses (the source can therefore loop
    forever on cyclic pointers, so every step spends one unit of fuel and fuel
    exhaustion models divergence). -/
def nameAux : Nat → List Nat → Option (List Nat) → Option (Nat × PyStr)
  | 0, _, _ => none
  | _ + 1, [], _ => none
  | fuel + 1, b :: rest, msg =>
    if b = 0 then some (1, [])
    else if b.land 192 ≠ 0 then
      match msg with
      | none => some (2, [])
      | some m =>
        match unpackH ((b :: rest).take 2) with
        | none => none
        | some w =>
          match nameAux fuel (m.drop (w.land 16383)) (some m) with
          | none => none
          | some p => some (2, removeSuffixDot p.2 ++ ['.'])
    else
      match asciiDecode (rest.take b) with
      | none => none
      | some label =>
        match nameAux fuel (rest.drop b) msg with
        | none => none
        | some p => some (1 + b + p.1, label ++ '.' :: p.2)

/-- `Record.nameFromRR`: bytes consumed and the decoded dotted name (the final
    `removesuffix(".")` of the source). -/
def nameFromRR (fuel : Nat) (rr : List Nat) (msg : Option (List Nat)) :
    Option (Nat × PyStr) :=
  (nameAux fuel rr msg).map (fun p => (p.1, removeSuffixDot p.2))

/-- Python `str(n)` on a natural number, written with enough fuel to peel all
    decimal digits (`n + 1` steps always suffice). -/
def ntoaAux : Nat → Nat → List Char
  | 0, _ => []
  | fuel + 1, n =>
    if n < 10 then [Char.ofNat (48 + n)]
    else ntoaAux fuel (n / 10) ++ [Char.ofNat (48 + n % 10)]

/-- Python `str(n)` on a natural number. -/
def ntoa (n : Nat) : PyStr := ntoaAux (n + 1) n

/-- Python `int(s)` restricted to nonempty all-digit strings.  The other shapes
    the source ever feeds to `int` either raise there (non-numeric text) or make
    the following `bytearray` call raise (negative values), so both are modelled
    as a failure. -/
def pyIntOpt (s : PyStr) : Option Nat :=
  if s.isEmpty || !s.all Char.isDigit then none
  else some (s.foldl (fun acc c => acc * 10 + (c.toNat - 48)) 0)

/-- Value of one hexadecimal digit. -/
def hexVal (c : Char) : Option Nat :=
  if '0' ≤ c ∧ c ≤ '9' then some (c.toNat - 48)
  else if 'a' ≤ c ∧ c ≤ 'f' then some (c.toNat - 87)
  else if 'A' ≤ c ∧ c ≤ 'F' then some (c.toNat - 55)
  else none

/-- `bytearray.fromhex` on separator-free text: consume hex digits in pairs. -/
def hexPairs : PyStr → Option (List Nat)
  | [] => some []
  | [_] => none
  | a :: b :: rest =>
    match hexVal a, hexVal b, hexPairs rest with
    | some x, some y, some tl => some ((x * 16 + y) :: tl)
    | _, _, _ => none

/-- One lowercase hexadecimal digit character. -/
def hexChar (d : Nat) : Char :=
  if d < 10 then Char.ofNat (48 + d) else Char.ofNat (87 + d)

/-- Python `f"[x:04x]"` formatting of a value below 2^16: exactly four
    lowercase hex digits. -/
def toHex4 (n : Nat) : PyStr :=
  [hexChar (n / 4096 % 16), hexChar (n / 256 % 16), hexChar (n / 16 % 16),
   hexChar (n % 16)]

/-- `struct.unpack("BBBB", bs)`: requires exactly four bytes. -/
def unpackBBBB : List Nat → Option (List Nat)
  | [a, b, c, d] => some [a, b, c, d]
  | _ => none

/-- `struct.unpack("!HHHHHHHH", bs)`: sixteen bytes giving eight values. -/
def unpackH8 : List Nat → Option (List Nat)
  | [b0, b1, b2, b3, b4, b5, b6, b7, b8, b9, b10, b11, b12, b13, b14, b15] =>
    some [b0 * 256 + b1, b2 * 256 + b3, b4 * 256 + b5, b6 * 256 + b7,
          b8 * 256 + b9, b10 * 256 + b11, b12 * 256 + b13, b14 * 256 + b15]
  | _ => none

/-- RDATA construction inside `Record.answer`, by record type.  A: dotted-quad
    text to raw bytes (`bytearray` raises on a non-byte component); AAAA: strip
    the colons and parse hex pairs; CNAME/NS: an encoded name; anything else:
    ASCII text.  A missing value crashes the source in every branch. -/
def Record.rdata (r : Record) : Option (List Nat) :=
  if r.recordType = some "A".toList then
    match r.value with
    | none => none
    | some v =>
      ((splitChar '.' v).mapM pyIntOpt).bind
        (fun xs => if xs.all (fun x => x < 256) then some xs else none)
  else if r.recordType = some "AAAA".toList then
    match r.value with
    | none => none
    | some v => hexPairs (v.filter (fun c => c ≠ ':'))
  else if r.recordType = some "CNAME".toList ∨ r.recordType = some "NS".toList then
    match r.value with
    | none => none
    | some v => convertRecordName v
  else
    match r.value with
    | none => none
    | some v => asciiEncode v

/-- `Record.answer`: name, type, class, ttl, RDLENGTH and RDATA concatenated. -/
def Record.answer (r : Record) : Option (List Nat) :=
  match r.nameField, r.typeField, r.ttlField, r.rdata with
  | some nf, some tf, some ttlf, some data =>
    (packH data.length).map
      (fun rdlen => nf ++ tf ++ Record.classField ++ ttlf ++ rdlen ++ data)
  | _, _, _, _ => none

/-- `Record.fromQuestion`: bytes consumed and the decoded question record.  The
    class code is skipped without being read. -/
def fromQuestion (now : Int) (fuel : Nat) (question : List Nat) :
    Option (Nat × Record) :=
  match nameFromRR fuel question none with
  | none => none
  | some (nameLength, name) =>
    match unpackH ((question.drop nameLength).take 2) with
    | none => none
    | some t => some (nameLength + 4, Record.make now (getType t) name none (-1))

/-- RDATA interpretation inside `Record.fromAnswer`, by decoded record type. -/
def answerValue (fuel : Nat) (recordType : Option PyStr) (answer : List Nat)
    (rdStart rdLength : Nat) (msg : Option (List Nat)) : Option PyStr :=
  if recordType = some "A".toList then
    (unpackBBBB ((answer.drop rdStart).take 4)).map
      (fun xs => joinChar '.' (xs.map ntoa))
  else if recordType = some "AAAA".toList then
    (unpackH8 ((answer.drop rdStart).take 16)).map
      (fun xs => joinChar ':' (xs.map toHex4))
  else if recordType = some "CNAME".toList ∨ recordType = some "NS".toList then
    (nameFromRR fuel ((answer.drop rdStart).take rdLength) msg).map (fun p => p.2)
  else
    asciiDecode ((answer.drop rdStart).take rdLength)

/-- `Record.fromAnswer`: bytes consumed and the decoded resource record. -/
def fromAnswer (now : Int) (fuel : Nat) (answer : List Nat)
    (msg : Option (List Nat)) : Option (Nat × Record) :=
  match nameFromRR fuel answer msg with
  | none => none
  | some (nameLength, name) =>
    match unpackH ((answer.drop nameLength).take 2) with
    | none => none
    | some t =>
      match unpackL ((answer.drop (nameLength + 4)).take 4) with
      | none => none
      | some ttl =>
        match unpackH ((answer.drop (nameLength + 8)).take 2) with
        | none => none
        | some rdLength =>
          match answerValue fuel (getType t) answer (nameLength + 10) rdLength msg with
          | none => none
          | some value =>
            some (nameLength + 10 + rdLength,
                  Record.make now (getType t) name (some value) (Int.ofNat ttl))

/-- One DNS message (class `DNSMessage`).  `respCode` is `none` for queries. -/
structure DNSMessage where
  id : Nat
  respCode : Option PyStr
  recurseDesired : Bool
  recurseAvailable : Bool
  questions : List Record
  answers : List Record
  authority : List Record
  additional : List Record
deriving DecidableEq

/-- `DNSMessage.RESP_CODES`, written with string literals.  The source lists the
    value 16 under two distinct keys, exactly as here. -/
def respCodesStr : List (String × Nat) :=
  [("NOERROR", 0), ("FORMERR", 1), ("SERVFAIL", 2), ("NXDOMAIN", 3),
   ("NOTIMP", 4), ("REFUSED", 5), ("YXDOMAIN", 6), ("YXRRSET", 7),
   ("NXRRSET", 8), ("NOTAUTH", 9), ("NOTZONE", 10), ("DSOTYPENI", 11),
   ("BADVERS", 16), ("BADSIG", 16), ("BADKEY", 17), ("BADTIME", 18),
   ("BADMODE", 19), ("BADNAME", 20), ("BADALG", 21), ("BADTRUNC", 22),
   ("BADCOOKIE", 23)]

/-- `DNSMessage.RESP_CODES` over `PyStr` keys. -/
def RESP_CODES : List (PyStr × Nat) :=
  respCodesStr.map (fun p => (p.1.toList, p.2))

/-- `DNSMessage.getResponseCode`: first code string carrying the given id. -/
def getResponseCode (rid : Nat) : Option PyStr :=
  (RESP_CODES.find? (fun p => p.2 == rid)).map (fun p => p.1)

/-- `DNSMessage.error`: true for every response code other than NOERROR and
    NXDOMAIN; a missing code (a query, or an unknown wire code) also counts. -/
def DNSMessage.error (m : DNSMessage) : Bool :=
  !(m.respCode == some "NOERROR".toList || m.respCode == some "NXDOMAIN".toList)

/-- `DNSMessage.encodeQuestions`: concatenated question encodings. -/
def encodeQuestions : List Record → Option (List Nat)
  | [] => some []
  | r :: rest =>
    match r.question, encodeQuestions rest with
    | some q, some tl => some (q ++ tl)
    | _, _ => none

/-- `DNSMessage.encodeResponses`: concatenated answer encodings. -/
def encodeResponses : List Record → Option (List Nat)
  | [] => some []
  | r :: rest =>
    match r.answer, encodeResponses rest with
    | some a, some tl => some (a ++ tl)
    | _, _ => none

/-- `DNSMessage.decodeQuestions`: decode the given number of question records,
    returning bytes consumed and the records. -/
def decodeQuestions (now : Int) (fuel : Nat) (questions : List Nat) :
    Nat → Option (Nat × List Record)
  | 0 => some (0, [])
  | n + 1 =>
    match fromQuestion now fuel questions with
    | none => none
    | some (len, r) =>
      match decodeQuestions now fuel (questions.drop len) n with
      | none => none
      | some (i, rs) => some (len + i, r :: rs)

/-- `DNSMessage.decodeResponses`: decode the given number of resource records. -/
def decodeResponses (now : Int) (fuel : Nat) (responses : List Nat)
    (msg : Option (List Nat)) : Nat → Option (Nat × List Record)
  | 0 => some (0, [])
  | n + 1 =>
    match fromAnswer now fuel responses msg with
    | none => none
    | some (len, r) =>
      match decodeResponses now fuel (responses.drop len) msg n with
      | none => none
      | some (i, rs) => some (len + i, r :: rs)

/-- `DNSMessage.fromMessage`.  `fuel` bounds compression-pointer chasing inside
    name decoding and `now` stamps the decoded records. -/
def DNSMessage.fromMessage (now : Int) (fuel : Nat) (msg : List Nat) :
    Option DNSMessage :=
  match msg.take 4 with
  | [i1, i2, f1, f2] =>
    let mid := i1 * 256 + i2
    let flagsRC := f1 * 256 + f2
    let reply : Bool := flagsRC.land 32768 != 0
    let rcode := flagsRC.land 15
    let rd : Bool := flagsRC.land 256 != 0
    let ra : Bool := flagsRC.land 128 != 0
    match (msg.drop 4).take 8 with
    | [q1, q2, a1, a2, u1, u2, d1, d2] =>
      match decodeQuestions now fuel (msg.drop 12) (q1 * 256 + q2) with
      | none => none
      | some (s1, questions) =>
        match decodeResponses now fuel (msg.drop (12 + s1)) (some msg)
            (a1 * 256 + a2) with
        | none => none
        | some (s2, answers) =>
          match decodeResponses now fuel (msg.drop (12 + s1 + s2)) (some msg)
              (u1 * 256 + u2) with
          | none => none
          | some (s3, authorities) =>
            match decodeResponses now fuel (msg.drop (12 + s1 + s2 + s3))
                (some msg) (d1 * 256 + d2) with
            | none => none
            | some (_, additional) =>
              some ⟨mid, if reply then getResponseCode rcode else none, rd, ra,
                    questions, answers, authorities, additional⟩
    | _ => none
  | _ => none

/-- Flag-word construction inside `DNSMessage.payload`: RA is bit 7, RD bit 8,
    and a present response code sets QR (bit 15) and contributes its code bits. -/
def buildFlags (respCode : Option PyStr) (rd ra : Bool) : Option Nat :=
  let f1 : Nat := if ra then Nat.lor 0 128 else 0
  let f2 : Nat := if rd then f1.lor 256 else f1
  match respCode with
  | none => some f2
  | some rc => (assocGet RESP_CODES rc).map (fun c => f2.lor (c.lor 32768))

/-- `DNSMessage.payload`: header, counts and the four encoded sections. -/
def DNSMessage.payload (m : DNSMessage) : Option (List Nat) := do
  let idb ← packH m.id
  let fl ← buildFlags m.respCode m.recurseDesired m.recurseAvailable
  let flb ← packH fl
  let c1 ← packH m.questions.length
  let c2 ← packH m.answers.length
  let c3 ← packH m.authority.length
  let c4 ← packH m.additional.length
  let qs ← encodeQuestions m.questions
  let ans ← encodeResponses m.answers
  let auth ← encodeResponses m.authority
  let add ← encodeResponses m.additional
  pure (idb ++ flb ++ c1 ++ c2 ++ c3 ++ c4 ++ qs ++ ans ++ auth ++ add)

/-- Modelled from the spec: name decoding that follows exactly one compression
    pointer, consuming the pointer target as a plain label sequence — a further
    pointer inside the target is treated the way `nameFromRR` treats a pointer
    with no message available (it stops).  This is the reading asserted by the
    specification; it exists only to be compared with the source's `nameAux`. -/
def nameOnePtrAux : Nat → List Nat → Option (List Nat) → Option (Nat × PyStr)
  | 0, _, _ => none
  | _ + 1, [], _ => none
  | fuel + 1, b :: rest, msg =>
    if b = 0 then some (1, [])
    else if b.land 192 ≠ 0 then
      match msg with
      | none => some (2, [])
      | some m =>
        match unpackH ((b :: rest).take 2) with
        | none => none
        | some w =>
          match nameOnePtrAux fuel (m.drop (w.land 16383)) none with
          | none => none
          | some p => some (2, removeSuffixDot p.2 ++ ['.'])
    else
      match asciiDecode (rest.take b) with
      | none => none
      | some label =>
        match nameOnePtrAux fuel (rest.drop b) msg with
        | none => none
        | some p => some (1 + b + p.1, label ++ '.' :: p.2)

/-- The one-pointer reading of `nameFromRR`, wrapped like the source function. -/
def nameFromRROnePtr (fuel : Nat) (rr : List Nat) (msg : Option (List Nat)) :
    Option (Nat × PyStr) :=
  (nameOnePtrAux fuel rr msg).map (fun p => (p.1, removeSuffixDot p.2))

/-- A message holding a chained compression pointer: offset 0 spells `a`,
    offset 3 spells `b` followed by a pointer to offset 0, and offset 7 spells
    `c` followed by a pointer to offset 3. -/
def chainedPtrMsg : List Nat := [1, 97, 0, 1, 98, 192, 0, 1, 99, 192, 3]

theorem removeSuffixDot_concat_dot (s : PyStr) :
    removeSuffixDot (s ++ ['.']) = s := by
  simp [removeSuffixDot]

theorem unpackL_packL {n : Nat} (h : n < 4294967296) :
    (packL n).bind unpackL = some n := by
  have hr : (packL n).bind unpackL
      = some ((((n / 16777216) * 256 + n / 65536 % 256) * 256 + n / 256 % 256)
          * 256 + n % 256) := by
    simp only [packL, if_pos h]
    rfl
  rw [hr]
  congr 1
  omega

theorem unpackH_packH {n : Nat} (h : n < 65536) :
    (packH n).bind unpackH = some n := by
  have hr : (packH n).bind unpackH = some ((n / 256) * 256 + n % 256) := by
    simp only [packH, if_pos h]
    rfl
  rw [hr]
  congr 1
  omega

/-- C4 (counterexample): a record with ttl 0 has its TTL field encoded as
    2^31 - 1, not as the clamp of 0 into [0, 2^31 - 1], which would be 0. -/
theorem claim_C4_counterexample :
    (Record.ttlField ⟨some "A".toList, "a".toList, none, 0, 0⟩).bind unpackL
        = some 2147483647 ∧
    ¬ ((2147483647 : Int) = min (max (0 : Int) 0) 2147483647) := by
  constructor
  · rfl
  · decide

/-- C4 (amended): for every record whose ttl is below 2^32, the encoded TTL
    field holds the ttl itself when it is positive and 2^31 - 1 otherwise (so
    for every negative never-expiring ttl, and also for ttl 0); the field is a
    four-byte unsigned value, never negative.  Positive ttls in
    [2^31, 2^32 - 1] are not clamped, and a ttl of 2^32 or more makes the
    encoder raise. -/
theorem claim_C4_amended (r : Record) (h : r.ttl < 4294967296) :
    ∃ bs v, r.ttlField = some bs ∧ unpackL bs = some v ∧ v < 4294967296 ∧
      (v : Int) = if r.ttl > 0 then r.ttl else 2147483647 := by
  have hn : (if r.ttl > 0 then r.ttl else 2147483647).toNat < 4294967296 := by
    by_cases hp : r.ttl > 0
    · rw [if_pos hp]; omega
    · rw [if_neg hp]; omega
  have hb := unpackL_packL hn
  rcases hpk : packL (if r.ttl > 0 then r.ttl else 2147483647).toNat with _ | bs
  · rw [hpk] at hb; simp at hb
  · rw [hpk] at hb
    refine ⟨bs, (if r.ttl > 0 then r.ttl else 2147483647).toNat,
      ?_, hb, hn, ?_⟩
    · simpa [Record.ttlField] using hpk
    · split <;> omega

/-- C4 (witness): the amended statement evaluated at a never-expiring record
    with ttl -1. -/
theorem claim_C4_witness :
    ((⟨some "A".toList, "a".toList, none, -1, 0⟩ : Record).ttl < 4294967296) ∧
    ∃ bs v, Record.ttlField ⟨some "A".toList, "a".toList, none, -1, 0⟩ = some bs ∧
      unpackL bs = some v ∧ v < 4294967296 ∧
      (v : Int) = if (⟨some "A".toList, "a".toList, none, -1, 0⟩ : Record).ttl > 0
        then (⟨some "A".toList, "a".toList, none, -1, 0⟩ : Record).ttl
        else 2147483647 :=
  ⟨by decide, claim_C4_amended ⟨some "A".toList, "a".toList, none, -1, 0⟩ (by decide)⟩

/-- C3 (counterexample): on `chainedPtrMsg`, decoding the name at offset 7 with
    the full message supplied follows the pointer found inside the first
    pointer's target, producing `c.b.a`; the claimed one-pointer reading would
    stop at the second pointer and produce `c.b`. -/
theorem claim_C3_counterexample :
    nameFromRR 10 (chainedPtrMsg.drop 7) (some chainedPtrMsg)
        = some (4, "c.b.a".toList) ∧
    nameFromRROnePtr 10 (chainedPtrMsg.drop 7) (some chainedPtrMsg)
        = some (4, "c.b".toList) ∧
    ¬ (nameFromRR 10 (chainedPtrMsg.drop 7) (some chainedPtrMsg)
        = nameFromRROnePtr 10 (chainedPtrMsg.drop 7) (some chainedPtrMsg)) := by
  refine ⟨by decide, by decide, by decide⟩

/-- C3 (amended): with the full message supplied, a length byte with either of
    its top two bits set is treated as a compression pointer whose low 14 bits
    are an absolute offset into the message, and decoding recurses on the
    pointer target with the full message still supplied — so a pointer inside
    the target is itself followed; chains of pointers are followed recursively
    rather than being cut off after one indirection. -/
theorem claim_C3_amended (fuel b c : Nat) (rest m : List Nat)
    (hb : b.land 192 ≠ 0) (h0 : b ≠ 0) :
    nameFromRR (fuel + 1) (b :: c :: rest) (some m) =
      (nameFromRR fuel (m.drop ((b * 256 + c).land 16383)) (some m)).map
        (fun p => (2, p.2)) := by
  unfold nameFromRR
  have hstep : nameAux (fuel + 1) (b :: c :: rest) (some m)
      = match nameAux fuel (m.drop ((b * 256 + c).land 16383)) (some m) with
        | none => none
        | some p => some (2, removeSuffixDot p.2 ++ ['.']) := by
    rw [nameAux]
    rw [if_neg h0, if_pos hb]
    rfl
  rw [hstep]
  cases h : nameAux fuel (m.drop ((b * 256 + c).land 16383)) (some m) with
  | none => rfl
  | some p => simp [removeSuffixDot_concat_dot]

/-- C3 (witness): the amended statement evaluated on the chained-pointer
    message at its second pointer. -/
theorem claim_C3_witness :
    ((192 : Nat).land 192 ≠ 0) ∧ ((192 : Nat) ≠ 0) ∧
    nameFromRR 10 (192 :: 3 :: []) (some chainedPtrMsg) =
      (nameFromRR 9 (chainedPtrMsg.drop ((192 * 256 + 3).land 16383))
        (some chainedPtrMsg)).map (fun p => (2, p.2)) :=
  ⟨by decide, by decide,
    claim_C3_amended 9 192 3 [] chainedPtrMsg (by decide) (by decide)⟩

/-- The question loop in the body of `main`'s serve loop, parameterised by the
    resolver (`queryRecord` applied to the live cache and network).  A `None`
    resolver result prints an error, sets SERVFAIL and breaks out of the loop;
    a pair extends the reply's answer and additional sections. -/
def answerLoop (resolve : Record → Option (List Record × List Record)) :
    List Record → DNSMessage → DNSMessage
  | [], q => q
  | question :: rest, q =>
    match resolve question with
    | none => { q with respCode := some "SERVFAIL".toList }
    | some (na, add) =>
      answerLoop resolve rest
        { q with answers := q.answers ++ na, additional := q.additional ++ add }

/-- The per-datagram body of `main`'s serve loop: decode (done by the caller),
    set recursion-available, run the question loop, and then — with or without
    a break — overwrite the response code with NOERROR just before replying. -/
def handleQuery (resolve : Record → Option (List Record × List Record))
    (query : DNSMessage) : DNSMessage :=
  let q2 := answerLoop resolve query.questions { query with recurseAvailable := true }
  { q2 with respCode := some "NOERROR".toList }

/-- A two-question query used to exercise the serve loop. -/
def twoQuestionQuery : DNSMessage :=
  ⟨1, none, true, false,
   [Record.make 0 (some "A".toList) "a.test".toList none (-1),
    Record.make 0 (some "A".toList) "b.test".toList none (-1)],
   [], [], []⟩

/-- A resolver that answers the first question of `twoQuestionQuery` and
    reports an upstream failure (Python `None`) for every other question. -/
def failSecondResolver (r : Record) : Option (List Record × List Record) :=
  if r.name = "a.test".toList then
    some ([Record.make 0 (some "A".toList) "a.test".toList
            (some "1.2.3.4".toList) 60], [])
  else none

/-- C1: the claim fails on the code.  The serve loop does assign SERVFAIL when
    `queryRecord` reports an upstream failure, but the assignment is dead: the
    response code is unconditionally overwritten with NOERROR just before the
    reply is sent, for every resolver and every inbound query.  Moreover the
    reply still carries the answers accumulated for questions resolved before
    the failing one, so partial answers are sent under NOERROR. -/
theorem claim_C1_always_noerror :
    (∀ (resolve : Record → Option (List Record × List Record))
       (query : DNSMessage),
        (handleQuery resolve query).respCode = some "NOERROR".toList) ∧
    (handleQuery failSecondResolver twoQuestionQuery).respCode
        = some "NOERROR".toList ∧
    (handleQuery failSecondResolver twoQuestionQuery).answers ≠ [] := by
  refine ⟨fun resolve query => rfl, rfl, by decide⟩

/-- One node of the zone cache tree (class `Zone`).  The Python dict of
    subzones is modelled as an insertion-ordered association list; the fields
    are subzones, records, ttl and queriedAt in the order of `Zone.__init__`. -/
inductive Zone where
  | mk : List (PyStr × Zone) → List Record → Int → Int → Zone

/-- The subzones dict of a zone. -/
def Zone.subzones : Zone → List (PyStr × Zone)
  | .mk s _ _ _ => s

/-- The record list of a zone. -/
def Zone.records : Zone → List Record
  | .mk _ r _ _ => r

/-- The ttl of a zone (negative means no expiry). -/
def Zone.ttl : Zone → Int
  | .mk _ _ t _ => t

/-- The cache timestamp of a zone. -/
def Zone.queriedAt : Zone → Int
  | .mk _ _ _ q => q

/-- `Zone.expiry` and `Zone.expired` folded together, exactly like the record
    version: a negative ttl never expires. -/
def Zone.expired (now : Int) (z : Zone) : Bool :=
  if z.ttl < 0 then false else decide (z.queriedAt + z.ttl < now)

/-- The recursion of `Zone.getZone`.  The source pops `path[-1]` each step;
    the model walks the reversed path, so the head here is the source's last
    element, and the matched path is rebuilt in the source's original order
    (least-specific label first).  Meeting an expired subzone makes the source
    call `dict.remove`, a method that does not exist — the resulting
    `AttributeError` crashes the whole query and is modelled as `none`. -/
def Zone.getZoneRev (now : Int) : Zone → List PyStr → Option (List PyStr × Zone)
  | z, [] => some ([], z)
  | z, nextZone :: restRev =>
    match assocGet z.subzones nextZone with
    | some nzo =>
      if nzo.expired now then none
      else
        match Zone.getZoneRev now nzo restRev with
        | none => none
        | some p => some (p.1 ++ [nextZone], p.2)
    | none => some ([], z)

/-- `Zone.getZone` on a path in the source's order. -/
def Zone.getZone (now : Int) (z : Zone) (path : List PyStr) :
    Option (List PyStr × Zone) :=
  Zone.getZoneRev now z path.reverse

/-- `Zone.getRecords`: first component: all unexpired records of the requested
    type, in order; second component: the record list after the same pass has
    removed the expired records it met (the source mutates `self.records`;
    record equality in Python is identity, and structurally equal records
    expire together, so the filter model removes the same multiset). -/
def Zone.getRecords (now : Int) (z : Zone) (t : PyStr) :
    List Record × List Record :=
  (z.records.filter (fun r => !r.expired now && r.recordType == some t),
   z.records.filter (fun r => !r.expired now))

/-- The 13 root-server letters. -/
def rootLetters : List String :=
  ["a", "b", "c", "d", "e", "f", "g", "h", "i", "j", "k", "l", "m"]

/-- The root-server hint addresses seeded into the cache. -/
def rootServerAddrs : List (String × String) :=
  [("a", "198.41.0.4"), ("b", "170.247.170.2"), ("c", "192.33.4.12"),
   ("d", "199.7.91.13"), ("e", "192.203.230.10"), ("f", "192.5.5.241"),
   ("g", "192.112.36.4"), ("h", "198.97.190.53"), ("i", "192.36.148.17"),
   ("j", "192.58.128.30"), ("k", "193.0.14.129"), ("l", "199.7.83.42"),
   ("m", "202.12.27.33")]

/-- The `root-servers.net` zone of the seeded cache: one subzone per letter
    holding that server's A record, plus the 13 NS records.  Seed records are
    created at program start, taken here as time 0, and never expire. -/
def rootServersNetZone : Zone :=
  Zone.mk
    (rootServerAddrs.map (fun p =>
      (p.1.toList,
       Zone.mk []
         [Record.make 0 (some "A".toList) (p.1 ++ ".root-servers.net").toList
            (some p.2.toList) (-1)]
         (-1) 0)))
    (rootLetters.map (fun l =>
      Record.make 0 (some "NS".toList) "root-servers.net".toList
        (some (l ++ ".root-servers.net").toList) (-1)))
    (-1) 0

/-- The module-level `rootZone`: a `net` zone containing `root-servers.net`,
    and the 13 root NS hint records attached to the root itself. -/
def rootZone : Zone :=
  Zone.mk
    [("net".toList,
      Zone.mk [("root-servers".toList, rootServersNetZone)] [] (-1) 0)]
    (rootLetters.map (fun l =>
      Record.make 0 (some "NS".toList) "".toList
        (some (l ++ ".root-servers.net").toList) (-1)))
    (-1) 0

/-- The record filter of `addRecords`: only A, CNAME and NS records enter the
    cache. -/
def cacheable (r : Record) : Bool :=
  r.recordType == some "A".toList || r.recordType == some "CNAME".toList ||
    r.recordType == some "NS".toList

/-- Append a record to the group held under a path key, the model of one
    `recordsByZone` dict update. -/
def groupAdd : List (List PyStr × List Record) → List PyStr → Record →
    List (List PyStr × List Record)
  | [], key, r => [(key, [r])]
  | (k, rs) :: rest, key, r =>
    if k = key then (k, rs ++ [r]) :: rest else (k, rs) :: groupAdd rest key r

/-- The grouping loop of `addRecords` over the incoming records. -/
def recordsByZoneAux : List (List PyStr × List Record) → List Record →
    List (List PyStr × List Record)
  | acc, [] => acc
  | acc, r :: rest =>
    if cacheable r then
      recordsByZoneAux (groupAdd acc (splitChar '.' r.name) r) rest
    else recordsByZoneAux acc rest

/-- The `recordsByZone` dict of `addRecords`: cacheable records grouped by
    their dot-split name, keys in insertion order. -/
def recordsByZone (rs : List Record) : List (List PyStr × List Record) :=
  recordsByZoneAux [] rs

/-- The insertion step of `addRecords` for one record group, walking the
    reversed path: descend through the subzones `getZone` matched and create
    fresh never-expiring zones (`Zone()`, ttl -1, stamped with the current
    time) for the missing suffix, exactly as the source's creation loop
    attaches them; finally extend the target zone's record list. -/
def Zone.insertAt (now : Int) : Zone → List PyStr → List Record → Zone
  | z, [], rs => Zone.mk z.subzones (z.records ++ rs) z.ttl z.queriedAt
  | z, l :: restRev, rs =>
    match assocGet z.subzones l with
    | some child =>
      Zone.mk (assocSet z.subzones l (Zone.insertAt now child restRev rs))
        z.records z.ttl z.queriedAt
    | none =>
      Zone.mk
        (assocSet z.subzones l
          (Zone.insertAt now (Zone.mk [] [] (-1) now) restRev rs))
        z.records z.ttl z.queriedAt

/-- The per-group loop of `addRecords`: locate the closest zone — the walk
    whose expired-zone branch crashes, hence the `Option` — then insert the
    group.  The source creates exactly the zones missing beyond the matched
    path; `Zone.insertAt` reproduces that descend-or-create behaviour. -/
def addRecordsGroups (now : Int) :
    Zone → List (List PyStr × List Record) → Option Zone
  | z, [] => some z
  | z, (path, rs) :: rest =>
    match z.getZone now path with
    | none => none
    | some _ => addRecordsGroups now (Zone.insertAt now z path.reverse rs) rest

/-- `addRecords`: group the cacheable records by zone path and insert each
    group in turn. -/
def addRecords (now : Int) (root : Zone) (rs : List Record) : Option Zone :=
  addRecordsGroups now root (recordsByZone rs)

/-- Observation helper (not from the source): the zone sitting at an exact
    reversed path, ignoring expiry. -/
def Zone.zoneAtRev : Zone → List PyStr → Option Zone
  | z, [] => some z
  | z, l :: rest =>
    match assocGet z.subzones l with
    | some child => child.zoneAtRev rest
    | none => none

/-- Observation helper: the records stored at an exact reversed path, empty
    when no such zone exists. -/
def Zone.recordsAtRev (z : Zone) (rev : List PyStr) : List Record :=
  match z.zoneAtRev rev with
  | some z' => z'.records
  | none => []

/-- Observation helper: the records stored at an exact path in source order. -/
def Zone.recordsAt (z : Zone) (path : List PyStr) : List Record :=
  z.recordsAtRev path.reverse

/-- Every zone node of a tree carries a negative, never-expiring ttl.  Every
    zone the program constructs — the seeded root and the fresh `Zone()` nodes
    of `addRecords` — is of this shape. -/
inductive Zone.NoZoneTTL : Zone → Prop where
  | mk : ∀ (subs : List (PyStr × Zone)) (recs : List Record) (ttl qa : Int),
      ttl < 0 → (∀ p ∈ subs, Zone.NoZoneTTL p.2) →
      Zone.NoZoneTTL (Zone.mk subs recs ttl qa)

/-- Executable check for `Zone.NoZoneTTL` down to a given depth. -/
def Zone.noZoneTTLB : Nat → Zone → Bool
  | 0, _ => false
  | d + 1, z =>
    decide (z.ttl < 0) && z.subzones.all (fun p => Zone.noZoneTTLB d p.2)

theorem assocGet_mem {κ α : Type} [DecidableEq κ] {xs : List (κ × α)} {key : κ}
    {v : α} (h : assocGet xs key = some v) : (key, v) ∈ xs := by
  induction xs with
  | nil => simp [assocGet] at h
  | cons q rest ih =>
    obtain ⟨k, w⟩ := q
    rw [assocGet] at h
    by_cases hk : k = key
    · rw [if_pos hk] at h
      cases h
      exact hk ▸ List.mem_cons_self _ _
    · rw [if_neg hk] at h
      exact List.mem_cons_of_mem _ (ih h)

theorem mem_assocSet {κ α : Type} [DecidableEq κ] {xs : List (κ × α)} {key : κ}
    {v : α} {p : κ × α} (h : p ∈ assocSet xs key v) : p = (key, v) ∨ p ∈ xs := by
  induction xs with
  | nil => simpa [assocSet] using h
  | cons q rest ih =>
    obtain ⟨k, w⟩ := q
    rw [assocSet] at h
    by_cases hk : k = key
    · rw [if_pos hk] at h
      rcases List.mem_cons.mp h with h1 | h2
      · exact Or.inl (by rw [h1, hk])
      · exact Or.inr (List.mem_cons_of_mem _ h2)
    · rw [if_neg hk] at h
      rcases List.mem_cons.mp h with h1 | h2
      · exact Or.inr (h1 ▸ List.mem_cons_self _ _)
      · rcases ih h2 with h3 | h4
        · exact Or.inl h3
        · exact Or.inr (List.mem_cons_of_mem _ h4)

theorem zone_expired_false {now : Int} {z : Zone} (h : Zone.NoZoneTTL z) :
    z.expired now = false := by
  cases h with
  | mk subs recs ttl qa httl hsub => simp [Zone.expired, Zone.ttl, httl]

theorem noZoneTTL_sub {z : Zone} (h : Zone.NoZoneTTL z) {l : PyStr} {c : Zone}
    (hc : assocGet z.subzones l = some c) : Zone.NoZoneTTL c := by
  cases h with
  | mk subs recs ttl qa httl hsub =>
    exact hsub _ (assocGet_mem (by simpa [Zone.subzones] using hc))

theorem getZoneRev_isSome {now : Int} {z : Zone} (h : Zone.NoZoneTTL z)
    (rev : List PyStr) : ∃ r, Zone.getZoneRev now z rev = some r := by
  induction rev generalizing z with
  | nil => exact ⟨_, rfl⟩
  | cons l rest ih =>
    rw [Zone.getZoneRev]
    cases hc : assocGet z.subzones l with
    | none => exact ⟨_, rfl⟩
    | some child =>
      have hch := noZoneTTL_sub h hc
      obtain ⟨r, hr⟩ := ih hch
      refine ⟨(r.1 ++ [l], r.2), ?_⟩
      simp [zone_expired_false hch, hr]

theorem getZone_isSome {now : Int} {z : Zone} (h : Zone.NoZoneTTL z)
    (path : List PyStr) : ∃ r, Zone.getZone now z path = some r :=
  getZoneRev_isSome h path.reverse

theorem noZoneTTLB_sound {d : Nat} {z : Zone} (h : Zone.noZoneTTLB d z = true) :
    Zone.NoZoneTTL z := by
  induction d generalizing z with
  | zero => simp [Zone.noZoneTTLB] at h
  | succ d ih =>
    cases z with
    | mk subs recs ttl qa =>
      rw [Zone.noZoneTTLB] at h
      simp only [Bool.and_eq_true, decide_eq_true_eq, List.all_eq_true] at h
      exact Zone.NoZoneTTL.mk subs recs ttl qa
        (by simpa [Zone.ttl] using h.1)
        (fun p hp => ih (h.2 p (by simpa [Zone.subzones] using hp)))

theorem rootZone_noZoneTTL : Zone.NoZoneTTL rootZone :=
  noZoneTTLB_sound (show Zone.noZoneTTLB 4 rootZone = true by decide)

theorem insertAt_noZoneTTL {now : Int} {z : Zone} (h : Zone.NoZoneTTL z)
    (rev : List PyStr) (rs : List Record) :
    Zone.NoZoneTTL (Zone.insertAt now z rev rs) := by
  induction rev generalizing z with
  | nil =>
    cases h with
    | mk subs recs ttl qa httl hsub =>
      rw [Zone.insertAt]
      simp only [Zone.subzones, Zone.records, Zone.ttl, Zone.queriedAt]
      exact .mk _ _ _ _ httl hsub
  | cons l rest ih =>
    cases h with
    | mk subs recs ttl qa httl hsub =>
      rw [Zone.insertAt]
      simp only [Zone.subzones, Zone.records, Zone.ttl, Zone.queriedAt]
      cases hc : assocGet subs l with
      | some child =>
        refine .mk _ _ _ _ httl ?_
        intro p hp
        rcases mem_assocSet hp with h1 | h2
        · rw [h1]
          exact ih (hsub _ (assocGet_mem hc))
        · exact hsub _ h2
      | none =>
        refine .mk _ _ _ _ httl ?_
        intro p hp
        rcases mem_assocSet hp with h1 | h2
        · rw [h1]
          exact ih (Zone.NoZoneTTL.mk [] [] (-1) now (by norm_num)
            (fun q hq => absurd hq (List.not_mem_nil q)))
        · exact hsub _ h2

theorem addRecordsGroups_noZoneTTL {now : Int} {z z' : Zone}
    {groups : List (List PyStr × List Record)} (h : Zone.NoZoneTTL z)
    (hg : addRecordsGroups now z groups = some z') : Zone.NoZoneTTL z' := by
  induction groups generalizing z with
  | nil =>
    rw [addRecordsGroups] at hg
    cases hg
    exact h
  | cons g rest ih =>
    obtain ⟨path, rs⟩ := g
    rw [addRecordsGroups] at hg
    cases hz : Zone.getZone now z path with
    | none => rw [hz] at hg; cases hg
    | some r =>
      rw [hz] at hg
      exact ih (insertAt_noZoneTTL h _ _) hg

theorem addRecords_noZoneTTL {now : Int} {z z' : Zone} {rs : List Record}
    (h : Zone.NoZoneTTL z) (hg : addRecords now z rs = some z') :
    Zone.NoZoneTTL z' :=
  addRecordsGroups_noZoneTTL h hg

/-- C8 (counterexample): a zone node does carry its own ttl, and `getZone`
    acts on it: with a subzone of ttl 5 cached at time 0, a lookup at time 10
    takes the zone-level-expiry branch (whose removal attempt crashes the
    query, modelled `none`), while the identical tree whose subzone has the
    never-expiring ttl -1 is traversed successfully. -/
theorem claim_C8_counterexample :
    Zone.getZone 10 (Zone.mk [("a".toList, Zone.mk [] [] 5 0)] [] (-1) 0)
        ["a".toList] = none ∧
    (Zone.getZone 10 (Zone.mk [("a".toList, Zone.mk [] [] (-1) 0)] [] (-1) 0)
        ["a".toList]).isSome = true := by
  exact ⟨rfl, rfl⟩

/-- C8 (amended): `Zone` carries an independent ttl and `getZone` checks each
    subzone's zone-level expiry, attempting a removal (through a method dicts
    do not have, so the branch in fact crashes the query) when it fires.
    However, every zone the program ever constructs has ttl -1: the seeded
    root satisfies `NoZoneTTL`, `addRecords` preserves it, and on such trees
    `getZone` always returns successfully — it never removes (nor crashes on)
    a zone node, so cache expiry is decided per record only. -/
theorem claim_C8_amended :
    Zone.NoZoneTTL rootZone ∧
    (∀ (now : Int) (z : Zone) (path : List PyStr), Zone.NoZoneTTL z →
      (Zone.getZone now z path).isSome = true) ∧
    (∀ (now : Int) (z z' : Zone) (rs : List Record), Zone.NoZoneTTL z →
      addRecords now z rs = some z' → Zone.NoZoneTTL z') := by
  refine ⟨rootZone_noZoneTTL, fun now z path h => ?_,
    fun now z z' rs h hg => addRecords_noZoneTTL h hg⟩
  obtain ⟨r, hr⟩ := getZone_isSome h path
  rw [hr]
  rfl

/-- C8 (witness): the amended statement applied to the seeded root zone. -/
theorem claim_C8_witness :
    (Zone.getZone 0 rootZone ["example".toList, "com".toList]).isSome = true :=
  claim_C8_amended.2.1 0 rootZone ["example".toList, "com".toList]
    claim_C8_amended.1

theorem assocGet_assocSet_same {κ α : Type} [DecidableEq κ]
    (xs : List (κ × α)) (key : κ) (v : α) :
    assocGet (assocSet xs key v) key = some v := by
  induction xs with
  | nil => simp [assocSet, assocGet]
  | cons q rest ih =>
    obtain ⟨k, w⟩ := q
    rw [assocSet]
    by_cases hk : k = key
    · rw [if_pos hk, assocGet, if_pos hk]
    · rw [if_neg hk, assocGet, if_neg hk]
      exact ih

theorem assocGet_assocSet_ne {κ α : Type} [DecidableEq κ]
    (xs : List (κ × α)) {key key' : κ} (v : α) (hne : key' ≠ key) :
    assocGet (assocSet xs key v) key' = assocGet xs key' := by
  induction xs with
  | nil => simp [assocSet, assocGet, Ne.symm hne]
  | cons q rest ih =>
    obtain ⟨k, w⟩ := q
    rw [assocSet]
    by_cases hk : k = key
    · rw [if_pos hk, assocGet, assocGet]
      have hkk : ¬ (k = key') := fun h => hne (h.symm.trans hk)
      rw [if_neg hkk, if_neg hkk]
    · rw [if_neg hk, assocGet, assocGet]
      by_cases hk' : k = key'
      · rw [if_pos hk', if_pos hk']
      · rw [if_neg hk', if_neg hk']
        exact ih

theorem recordsAtRev_nil (S : List (PyStr × Zone)) (R : List Record)
    (t q : Int) : (Zone.mk S R t q).recordsAtRev [] = R := rfl

theorem recordsAtRev_cons_some {S : List (PyStr × Zone)} (R : List Record)
    (t q : Int) {l : PyStr} (rest : List PyStr) {c : Zone}
    (hc : assocGet S l = some c) :
    (Zone.mk S R t q).recordsAtRev (l :: rest) = c.recordsAtRev rest := by
  rw [Zone.recordsAtRev, Zone.zoneAtRev]
  simp only [Zone.subzones]
  rw [hc]
  rfl

theorem recordsAtRev_cons_none {S : List (PyStr × Zone)} (R : List Record)
    (t q : Int) {l : PyStr} (rest : List PyStr)
    (hc : assocGet S l = none) :
    (Zone.mk S R t q).recordsAtRev (l :: rest) = [] := by
  rw [Zone.recordsAtRev, Zone.zoneAtRev]
  simp only [Zone.subzones]
  rw [hc]

theorem recordsAtRev_fresh (now : Int) (rev : List PyStr) :
    (Zone.mk [] [] (-1) now).recordsAtRev rev = [] := by
  cases rev with
  | nil => rfl
  | cons l rest => exact recordsAtRev_cons_none _ _ _ _ rfl

theorem recordsAtRev_insertAt_same (now : Int) (z : Zone) (rev : List PyStr)
    (rs : List Record) :
    (Zone.insertAt now z rev rs).recordsAtRev rev = z.recordsAtRev rev ++ rs := by
  induction rev generalizing z with
  | nil =>
    cases z with
    | mk S R t q =>
      rw [Zone.insertAt]
      simp only [Zone.subzones, Zone.records, Zone.ttl, Zone.queriedAt]
      rw [recordsAtRev_nil, recordsAtRev_nil]
  | cons l rest ih =>
    cases z with
    | mk S R t q =>
      rw [Zone.insertAt]
      simp only [Zone.subzones, Zone.records, Zone.ttl, Zone.queriedAt]
      cases hc : assocGet S l with
      | some child =>
        rw [recordsAtRev_cons_some R t q rest (assocGet_assocSet_same S l _),
          recordsAtRev_cons_some R t q rest hc]
        exact ih child
      | none =>
        rw [recordsAtRev_cons_some R t q rest (assocGet_assocSet_same S l _),
          recordsAtRev_cons_none R t q rest hc]
        rw [ih (Zone.mk [] [] (-1) now), recordsAtRev_fresh]

theorem recordsAtRev_insertAt_ne (now : Int) (z : Zone) {rev rev' : List PyStr}
    (rs : List Record) (hne : rev' ≠ rev) :
    (Zone.insertAt now z rev rs).recordsAtRev rev' = z.recordsAtRev rev' := by
  induction rev generalizing z rev' with
  | nil =>
    cases z with
    | mk S R t q =>
      rw [Zone.insertAt]
      simp only [Zone.subzones, Zone.records, Zone.ttl, Zone.queriedAt]
      cases rev' with
      | nil => exact absurd rfl hne
      | cons l2 rest2 =>
        cases hc : assocGet S l2 with
        | some child =>
          rw [recordsAtRev_cons_some _ t q rest2 hc,
            recordsAtRev_cons_some R t q rest2 hc]
        | none =>
          rw [recordsAtRev_cons_none _ t q rest2 hc,
            recordsAtRev_cons_none R t q rest2 hc]
  | cons l rest ih =>
    cases z with
    | mk S R t q =>
      rw [Zone.insertAt]
      simp only [Zone.subzones, Zone.records, Zone.ttl, Zone.queriedAt]
      cases rev' with
      | nil =>
        cases hc : assocGet S l with
        | some child => rw [recordsAtRev_nil, recordsAtRev_nil]
        | none => rw [recordsAtRev_nil, recordsAtRev_nil]
      | cons l2 rest2 =>
        cases hc : assocGet S l with
        | some child =>
          by_cases hl : l2 = l
          · subst hl
            rw [recordsAtRev_cons_some R t q rest2 (assocGet_assocSet_same S l2 _),
              recordsAtRev_cons_some R t q rest2 hc]
            exact ih child (fun h => hne (by rw [h]))
          · cases hc2 : assocGet S l2 with
            | some c =>
              rw [recordsAtRev_cons_some R t q rest2
                  ((assocGet_assocSet_ne S _ hl).trans hc2),
                recordsAtRev_cons_some R t q rest2 hc2]
            | none =>
              rw [recordsAtRev_cons_none R t q rest2
                  ((assocGet_assocSet_ne S _ hl).trans hc2),
                recordsAtRev_cons_none R t q rest2 hc2]
        | none =>
          by_cases hl : l2 = l
          · subst hl
            rw [recordsAtRev_cons_some R t q rest2 (assocGet_assocSet_same S l2 _),
              recordsAtRev_cons_none R t q rest2 hc]
            rw [ih (Zone.mk [] [] (-1) now) (fun h => hne (by rw [h])),
              recordsAtRev_fresh]
          · cases hc2 : assocGet S l2 with
            | some c =>
              rw [recordsAtRev_cons_some R t q rest2
                  ((assocGet_assocSet_ne S _ hl).trans hc2),
                recordsAtRev_cons_some R t q rest2 hc2]
            | none =>
              rw [recordsAtRev_cons_none R t q rest2
                  ((assocGet_assocSet_ne S _ hl).trans hc2),
                recordsAtRev_cons_none R t q rest2 hc2]

/-- Observation helper: the concatenation of the record groups stored under a
    given path key, in group order. -/
def groupsFor (path : List PyStr) : List (List PyStr × List Record) → List Record
  | [] => []
  | (k, rs) :: rest => (if k = path then rs else []) ++ groupsFor path rest

theorem groupsFor_of_not_mem {path : List PyStr}
    {groups : List (List PyStr × List Record)}
    (h : path ∉ groups.map Prod.fst) : groupsFor path groups = [] := by
  induction groups with
  | nil => rfl
  | cons g rest ih =>
    obtain ⟨k, rs⟩ := g
    rw [groupsFor]
    simp only [List.map_cons, List.mem_cons] at h
    push_neg at h
    rw [if_neg (fun hh => h.1 hh.symm), ih h.2]
    rfl

theorem groupAdd_keys (acc : List (List PyStr × List Record))
    (key : List PyStr) (r : Record) :
    (groupAdd acc key r).map Prod.fst =
      if key ∈ acc.map Prod.fst then acc.map Prod.fst
      else acc.map Prod.fst ++ [key] := by
  induction acc with
  | nil => simp [groupAdd]
  | cons g rest ih =>
    obtain ⟨k, rs⟩ := g
    rw [groupAdd]
    by_cases hk : k = key
    · rw [if_pos hk]
      simp [hk]
    · rw [if_neg hk]
      simp only [List.map_cons, List.mem_cons]
      rw [ih]
      by_cases hm : key ∈ rest.map Prod.fst
      · rw [if_pos hm, if_pos (Or.inr hm)]
      · rw [if_neg hm, if_neg ?_]
        · simp
        · rintro (h1 | h2)
          · exact hk h1.symm
          · exact hm h2

theorem groupAdd_keys_nodup {acc : List (List PyStr × List Record)}
    {key : List PyStr} (r : Record) (h : (acc.map Prod.fst).Nodup) :
    ((groupAdd acc key r).map Prod.fst).Nodup := by
  rw [groupAdd_keys]
  by_cases hm : key ∈ acc.map Prod.fst
  · rw [if_pos hm]; exact h
  · rw [if_neg hm, List.nodup_append]
    exact ⟨h, List.nodup_singleton key, by simpa [List.disjoint_singleton] using hm⟩

theorem groupsFor_groupAdd {acc : List (List PyStr × List Record)}
    {key : List PyStr} (path : List PyStr) (r : Record)
    (hnd : (acc.map Prod.fst).Nodup) :
    groupsFor path (groupAdd acc key r) =
      groupsFor path acc ++ (if key = path then [r] else []) := by
  induction acc with
  | nil =>
    rw [groupAdd, groupsFor, groupsFor, groupsFor]
    simp
  | cons g rest ih =>
    obtain ⟨k, rs⟩ := g
    simp only [List.map_cons, List.nodup_cons] at hnd
    rw [groupAdd]
    by_cases hk : k = key
    · rw [if_pos hk, groupsFor, groupsFor]
      by_cases hp : k = path
      · have hgf : groupsFor path rest = [] :=
          groupsFor_of_not_mem (hp ▸ hnd.1)
        rw [if_pos hp, if_pos hp, hgf, if_pos (hk.symm.trans hp)]
        simp
      · rw [if_neg hp, if_neg hp, if_neg (fun h => hp (hk.trans h))]
        simp
    · rw [if_neg hk, groupsFor, groupsFor, ih hnd.2]
      simp [List.append_assoc]

theorem groupsFor_recordsByZoneAux (path : List PyStr) (rs : List Record) :
    ∀ (acc : List (List PyStr × List Record)), (acc.map Prod.fst).Nodup →
      groupsFor path (recordsByZoneAux acc rs) =
        groupsFor path acc ++
          rs.filter (fun r => cacheable r && decide (splitChar '.' r.name = path)) := by
  induction rs with
  | nil =>
    intro acc h
    rw [recordsByZoneAux, List.filter_nil, List.append_nil]
  | cons r rest ih =>
    intro acc h
    rw [recordsByZoneAux, List.filter_cons]
    by_cases hc : cacheable r
    · rw [if_pos hc, ih _ (groupAdd_keys_nodup r h),
        groupsFor_groupAdd path r h]
      by_cases hp : splitChar '.' r.name = path
      · simp [hc, hp]
      · simp [hc, hp]
    · rw [if_neg hc, ih _ h]
      simp [hc]

theorem recordsAt_addRecordsGroups {now : Int} :
    ∀ {groups : List (List PyStr × List Record)} {z z' : Zone},
      addRecordsGroups now z groups = some z' → ∀ path : List PyStr,
      z'.recordsAt path = z.recordsAt path ++ groupsFor path groups := by
  intro groups
  induction groups with
  | nil =>
    intro z z' hg path
    rw [addRecordsGroups] at hg
    cases hg
    rw [groupsFor, List.append_nil]
  | cons g rest ih =>
    intro z z' hg path
    obtain ⟨k, grs⟩ := g
    rw [addRecordsGroups] at hg
    cases hz : Zone.getZone now z k with
    | none => rw [hz] at hg; cases hg
    | some w =>
      rw [hz] at hg
      rw [ih hg path, groupsFor]
      by_cases hp : k = path
      · subst hp
        rw [if_pos rfl, Zone.recordsAt, Zone.recordsAt,
          recordsAtRev_insertAt_same]
        simp [List.append_assoc]
      · have hrev : path.reverse ≠ k.reverse :=
          fun h => hp (List.reverse_injective h).symm
        rw [if_neg hp, Zone.recordsAt, Zone.recordsAt,
          recordsAtRev_insertAt_ne now z _ hrev]
        simp

/-- C9: `addRecords` inserts exactly the incoming records whose type is A,
    CNAME or NS, each appended to the zone named by its dot-split name, and it
    discards every record of any other type — in particular AAAA answers
    learned from upstream responses never enter the cache: at every path, the
    cache holds its previous records followed by precisely the cacheable
    incoming records naming that path. -/
theorem claim_C9 {now : Int} {root root' : Zone} {rs : List Record}
    (h : addRecords now root rs = some root') (path : List PyStr) :
    root'.recordsAt path = root.recordsAt path ++
      rs.filter (fun r => cacheable r && decide (splitChar '.' r.name = path)) := by
  have h2 : addRecordsGroups now root (recordsByZone rs) = some root' := h
  rw [recordsAt_addRecordsGroups h2 path, recordsByZone,
    groupsFor_recordsByZoneAux path rs [] List.nodup_nil]
  rfl

/-- Records offered to the cache in the C9 witness: one A record and one AAAA
    record for the same name. -/
def c9DemoRecords : List Record :=
  [Record.make 0 (some "A".toList) "a.test".toList (some "1.2.3.4".toList) 60,
   Record.make 0 (some "AAAA".toList) "a.test".toList
     (some "2001:0db8:0000:0000:0000:0000:0000:0001".toList) 60]

/-- The cache produced by inserting the witness records into an empty root. -/
def c9DemoResult : Zone :=
  (addRecords 0 (Zone.mk [] [] (-1) 0) c9DemoRecords).getD (Zone.mk [] [] (-1) 0)

/-- C9 (witness): inserting an A and an AAAA record stores exactly the A
    record at the record's path. -/
theorem claim_C9_witness :
    addRecords 0 (Zone.mk [] [] (-1) 0) c9DemoRecords = some c9DemoResult ∧
    c9DemoResult.recordsAt (splitChar '.' "a.test".toList) =
      (Zone.mk [] [] (-1) 0 : Zone).recordsAt (splitChar '.' "a.test".toList) ++
        c9DemoRecords.filter
          (fun r => cacheable r &&
            decide (splitChar '.' r.name = splitChar '.' "a.test".toList)) :=
  ⟨by rfl, claim_C9 (by rfl) (splitChar '.' "a.test".toList)⟩

/-- The network seen by the resolver: a deterministic oracle mapping the
    contacted address and request datagram to the raw response datagram (the
    source's `sendto` followed by a blocking `recvfrom`). -/
abbrev Net := PyStr → List Nat → List Nat

/-- The inner loop of `queryRecord` that walks from the closest matched zone
    upward (dropping the most specific label of the matched path each step)
    until a zone with unexpired NS records is found.  One unit of fuel is
    spent per step: the walk strictly shortens the matched path, so
    `closestPath.length + 1` steps reach the root, and running out of fuel
    beyond that happens exactly when no zone on the way up — the root included
    — offers NS records, which is the source's infinite loop. -/
def findNS (now : Int) (root : Zone) :
    Nat → List PyStr → Zone → Option (List PyStr × Zone × List Record)
  | 0, _, _ => none
  | fuel + 1, closestPath, closestZone =>
    let records := (closestZone.getRecords now "NS".toList).1
    if records ≠ [] then some (closestPath, closestZone, records)
    else
      match root.getZone now (closestPath.drop 1) with
      | none => none
      | some (p, z) => findNS now root fuel p z

/-- The additional-answer loop of the iterative branch: for each NS record
    whose target zone is fully cached, append that zone's unexpired A records;
    targets with a missing zone are skipped.  An NS record with no value makes
    the source crash on `None.split`. -/
def collectAdditional (now : Int) (root : Zone) :
    List Record → Option (List Record)
  | [] => some []
  | r :: rest =>
    match r.value with
    | none => none
    | some v =>
      let recordPath := splitChar '.' v
      match root.getZone now recordPath with
      | none => none
      | some p =>
        match collectAdditional now root rest with
        | none => none
        | some tl =>
          if p.1.length < recordPath.length then some tl
          else some ((p.2.getRecords now "A".toList).1 ++ tl)

/-- The upstream query datagram of the recursive branch:
    `DNSMessage(recurseDesired=False, questions=[Record(recordType, name)])`.
    The randomly generated transaction id is passed in as `qid`; the source
    never reads it back. -/
def upstreamQueryMsg (now : Int) (qid : Nat) (recordType name : PyStr) :
    DNSMessage :=
  ⟨qid, none, false, false, [Record.make now (some recordType) name none (-1)],
   [], [], []⟩

/-- Result of a modelled `queryRecord` run.  `crash` covers an uncaught Python
    exception and fuel exhaustion (divergence); `thru` is an address loop that
    finished without returning, carrying the upstream queries it sent; `out`
    carries the cache after the run, the log of upstream queries sent (address
    and datagram), and the Python return value — `none` being Python's `None`
    failure signal. -/
inductive RunRes where
  | crash : RunRes
  | thru : List (PyStr × List Nat) → RunRes
  | out : Zone → List (PyStr × List Nat) →
      Option (List Record × List Record) → RunRes

/-- The address loop (`for nsARecord in recNAAnswers`) of the recursive
    branch.  `retry` re-enters `queryRecord` on the cache enlarged by a
    successful upstream response. -/
def tryAddrs (net : Net) (now : Int) (dfuel qid : Nat)
    (retry : Zone → RunRes) (root : Zone) (recordType name : PyStr) :
    List Record → RunRes
  | [] => .thru []
  | a :: rest =>
    match a.value with
    | none => .crash
    | some addr =>
      match (upstreamQueryMsg now qid recordType name).payload with
      | none => .crash
      | some req =>
        match DNSMessage.fromMessage now dfuel (net addr req) with
        | none => .crash
        | some response =>
          if response.error then
            match tryAddrs net now dfuel qid retry root recordType name rest with
            | .crash => .crash
            | .thru sends => .thru ((addr, req) :: sends)
            | .out z sends r => .out z ((addr, req) :: sends) r
          else if response.respCode = some "NXDOMAIN".toList then
            .out root [(addr, req)] (some ([], []))
          else
            match addRecords now root response.answers with
            | none => .crash
            | some r1 =>
              match addRecords now r1 response.authority with
              | none => .crash
              | some r2 =>
                match addRecords now r2 response.additional with
                | none => .crash
                | some r3 =>
                  match retry r3 with
                  | .crash => .crash
                  | .thru _ => .crash
                  | .out z sends r => .out z ((addr, req) :: sends) r

/-- The NS-record loop (`for nsRecord in records`) of the recursive branch.
    `sub` runs the iterative sub-query for a nameserver's A record (the source
    unpacks its result, so a `None` there is a crash); an empty sub-result is
    the dead-end return of `([], [])`; falling off the loop is `return None`. -/
def tryNS (net : Net) (now : Int) (dfuel qid : Nat) (sub : PyStr → RunRes)
    (retry : Zone → RunRes) (root : Zone) (recordType name : PyStr) :
    List Record → RunRes
  | [] => .out root [] none
  | ns :: rest =>
    match ns.value with
    | none => .crash
    | some nsname =>
      match sub nsname with
      | .crash => .crash
      | .thru _ => .crash
      | .out _ _ none => .crash
      | .out _ _ (some recNA) =>
        if recNA.1 = [] then .out root [] (some ([], []))
        else
          match tryAddrs net now dfuel qid retry root recordType name recNA.1 with
          | .crash => .crash
          | .thru sends =>
            match tryNS net now dfuel qid sub retry root recordType name rest with
            | .crash => .crash
            | .thru sends2 => .thru (sends ++ sends2)
            | .out z sends2 r => .out z (sends ++ sends2) r
          | .out z sends r => .out z sends r

/-- The delegation phase of `queryRecord` (label `handleNSRecords` onward):
    walk upward to NS records, then branch on recursive or iterative mode. -/
def handleNS (net : Net) (now : Int) (dfuel qid : Nat) (sub : PyStr → RunRes)
    (retry : Zone → RunRes) (root : Zone) (recordType name : PyStr)
    (recursive : Bool) (closestPath : List PyStr) (closestZone : Zone) :
    RunRes :=
  match findNS now root (closestPath.length + 1) closestPath closestZone with
  | none => .crash
  | some found =>
    if recursive then
      tryNS net now dfuel qid sub retry root recordType name found.2.2
    else
      match collectAdditional now root found.2.2 with
      | none => .crash
      | some additional => .out root [] (some (found.2.2, additional))

/-- `queryRecord`.  One unit of fuel pays for each Python-level recursive call
    (the iterative nameserver sub-query at line 487 and the retry at line 506);
    fuel exhaustion models unbounded recursion.  `dfuel` bounds
    compression-pointer chasing when decoding upstream responses, and `qid` is
    the transaction id the source draws at random. -/
def queryRecordF (net : Net) (now : Int) (dfuel qid : Nat) :
    Nat → Zone → PyStr → PyStr → Bool → RunRes
  | 0, _, _, _, _ => .crash
  | fuel + 1, root, recordType, name, recursive =>
    let zonePath := splitChar '.' name
    match root.getZone now zonePath with
    | none => .crash
    | some cp =>
      let sub := fun nsname =>
        queryRecordF net now dfuel qid fuel root "A".toList nsname false
      let retry := fun r3 =>
        queryRecordF net now dfuel qid fuel r3 recordType name recursive
      if cp.1.length = zonePath.length then
        let records := (cp.2.getRecords now recordType).1
        if records ≠ [] then .out root [] (some (records, []))
        else
          let cn := (cp.2.getRecords now "CNAME".toList).1
          if cn ≠ [] then .out root [] (some (cn, []))
          else
            handleNS net now dfuel qid sub retry root recordType name
              recursive cp.1 cp.2
      else
        handleNS net now dfuel qid sub retry root recordType name recursive
          cp.1 cp.2

/-- Every record stored anywhere in the tree carries a value.  Cached records
    always do: the seeds are built with values and every record `addRecords`
    receives was decoded by `fromAnswer`, which always sets one. -/
inductive Zone.Valued : Zone → Prop where
  | mk : ∀ (subs : List (PyStr × Zone)) (recs : List Record) (ttl qa : Int),
      (∀ r ∈ recs, (Record.value r).isSome = true) →
      (∀ p ∈ subs, Zone.Valued p.2) → Zone.Valued (Zone.mk subs recs ttl qa)

/-- Executable check for `Zone.Valued` down to a given depth. -/
def Zone.valuedB : Nat → Zone → Bool
  | 0, _ => false
  | d + 1, z =>
    z.records.all (fun r => r.value.isSome) &&
      z.subzones.all (fun p => Zone.valuedB d p.2)

theorem valuedB_sound {d : Nat} {z : Zone} (h : Zone.valuedB d z = true) :
    Zone.Valued z := by
  induction d generalizing z with
  | zero => simp [Zone.valuedB] at h
  | succ d ih =>
    cases z with
    | mk subs recs ttl qa =>
      rw [Zone.valuedB] at h
      simp only [Bool.and_eq_true, List.all_eq_true] at h
      exact Zone.Valued.mk subs recs ttl qa
        (fun r hr => h.1 r (by simpa [Zone.records] using hr))
        (fun p hp => ih (h.2 p (by simpa [Zone.subzones] using hp)))

theorem getRecords_fst_values {now : Int} {z : Zone} (h : Zone.Valued z)
    (t : PyStr) : ∀ r ∈ (z.getRecords now t).1, (Record.value r).isSome = true := by
  cases h with
  | mk subs recs ttl qa hrec hsub =>
    intro r hr
    rw [Zone.getRecords] at hr
    simp only [Zone.records] at hr
    exact hrec r (List.mem_of_mem_filter hr)

theorem valued_sub {z : Zone} (h : Zone.Valued z) {l : PyStr} {c : Zone}
    (hc : assocGet z.subzones l = some c) : Zone.Valued c := by
  cases h with
  | mk subs recs ttl qa hrec hsub =>
    exact hsub _ (assocGet_mem (by simpa [Zone.subzones] using hc))

theorem getZoneRev_valued {now : Int} {z : Zone} (h : Zone.Valued z)
    {rev : List PyStr} {res : List PyStr × Zone}
    (hr : Zone.getZoneRev now z rev = some res) : Zone.Valued res.2 := by
  induction rev generalizing z res with
  | nil =>
    rw [Zone.getZoneRev] at hr
    cases hr
    exact h
  | cons l rest ih =>
    rw [Zone.getZoneRev] at hr
    split at hr
    next child hc =>
      split at hr
      · cases hr
      · split at hr
        · cases hr
        next res2 hr2 =>
          cases hr
          have hv := ih (valued_sub h hc) hr2
          exact hv
    next hc =>
      cases hr
      exact h

theorem getZone_valued {now : Int} {root : Zone} (h : Zone.Valued root)
    {p : List PyStr} {res : List PyStr × Zone}
    (hr : root.getZone now p = some res) : Zone.Valued res.2 :=
  getZoneRev_valued h hr

/-- A matched path of `[]` means the walk stopped at the root itself. -/
theorem getZoneRev_nil_matched {now : Int} {z : Zone} {rev : List PyStr}
    {z' : Zone} (hr : Zone.getZoneRev now z rev = some ([], z')) : z' = z := by
  cases rev with
  | nil =>
    rw [Zone.getZoneRev] at hr
    cases hr
    rfl
  | cons l rest =>
    rw [Zone.getZoneRev] at hr
    split at hr
    next child hc =>
      split at hr
      · cases hr
      · split at hr
        · cases hr
        next res2 hr2 =>
          rw [Option.some_inj, Prod.ext_iff] at hr
          exact absurd hr.1.symm (by simp)
    next hc =>
      cases hr
      rfl

theorem getZoneRev_matched_le {now : Int} {z : Zone} {rev : List PyStr}
    {res : List PyStr × Zone} (hr : Zone.getZoneRev now z rev = some res) :
    res.1.length ≤ rev.length := by
  induction rev generalizing z res with
  | nil =>
    rw [Zone.getZoneRev] at hr
    cases hr
    exact Nat.le_refl 0
  | cons l rest ih =>
    rw [Zone.getZoneRev] at hr
    split at hr
    next child hc =>
      split at hr
      · cases hr
      · split at hr
        · cases hr
        next res2 hr2 =>
          cases hr
          have hlen := ih hr2
          simp only [List.length_append, List.length_cons, List.length_nil]
          omega
    next hc =>
      cases hr
      simp

theorem getZone_matched_le {now : Int} {root : Zone} {p : List PyStr}
    {res : List PyStr × Zone} (hr : root.getZone now p = some res) :
    res.1.length ≤ p.length := by
  have := getZoneRev_matched_le hr
  simpa using this

theorem getZone_nil_matched {now : Int} {root : Zone} {p : List PyStr}
    {z' : Zone} (hr : root.getZone now p = some ([], z')) : z' = root :=
  getZoneRev_nil_matched hr

theorem findNS_shape {now : Int} {root : Zone} :
    ∀ {fuel : Nat} {cp : List PyStr} {cz : Zone}
      {res : List PyStr × Zone × List Record},
      findNS now root fuel cp cz = some res →
      res.2.2 = (res.2.1.getRecords now "NS".toList).1 ∧ res.2.2 ≠ [] := by
  intro fuel
  induction fuel with
  | zero =>
    intro cp cz res h
    rw [findNS] at h
    cases h
  | succ f ih =>
    intro cp cz res h
    simp only [findNS] at h
    split at h
    next hrec =>
      cases h
      exact ⟨rfl, hrec⟩
    next hrec =>
      split at h
      · cases h
      next p hz => exact ih h

theorem findNS_mono {now : Int} {root : Zone} :
    ∀ {f f' : Nat} {cp : List PyStr} {cz : Zone}
      {res : List PyStr × Zone × List Record},
      findNS now root f cp cz = some res → f ≤ f' →
      findNS now root f' cp cz = some res := by
  intro f
  induction f with
  | zero =>
    intro f' cp cz res h _
    rw [findNS] at h
    cases h
  | succ f ih =>
    intro f' cp cz res h hle
    cases f' with
    | zero => omega
    | succ f2 =>
      simp only [findNS] at h ⊢
      split at h
      next hrec => rw [if_pos hrec]; exact h
      next hrec =>
        rw [if_neg hrec]
        split at h
        · cases h
        next p hz =>
          exact ih h (by omega)

theorem findNS_valued {now : Int} {root : Zone} (hval : Zone.Valued root) :
    ∀ {fuel : Nat} {cp : List PyStr} {cz : Zone}
      {res : List PyStr × Zone × List Record}, Zone.Valued cz →
      findNS now root fuel cp cz = some res → Zone.Valued res.2.1 := by
  intro fuel
  induction fuel with
  | zero =>
    intro cp cz res _ h
    rw [findNS] at h
    cases h
  | succ f ih =>
    intro cp cz res hcz h
    simp only [findNS] at h
    split at h
    next hrec =>
      cases h
      exact hcz
    next hrec =>
      split at h
      · cases h
      next p hz => exact ih (getZone_valued hval hz) h

theorem findNS_succ {now : Int} {root : Zone} (hzt : Zone.NoZoneTTL root)
    (hns : (root.getRecords now "NS".toList).1 ≠ []) :
    ∀ (n : Nat) (cp : List PyStr) (cz : Zone) (p : List PyStr),
      cp.length ≤ n → root.getZone now p = some (cp, cz) →
      ∃ res, findNS now root (cp.length + 1) cp cz = some res := by
  intro n
  induction n with
  | zero =>
    intro cp cz p hle hget
    have hcp : cp = [] := List.length_eq_zero.mp (Nat.le_zero.mp hle)
    subst hcp
    have hcz : cz = root := getZone_nil_matched hget
    subst hcz
    refine ⟨([], cz, (Zone.getRecords now cz "NS".toList).1), ?_⟩
    simp only [findNS]
    rw [if_pos hns]
  | succ n ih =>
    intro cp cz p hle hget
    by_cases hrec : (cz.getRecords now "NS".toList).1 ≠ []
    · refine ⟨(cp, cz, (cz.getRecords now "NS".toList).1), ?_⟩
      simp only [findNS]
      rw [if_pos hrec]
    · cases hcp : cp with
      | nil =>
        subst hcp
        have hcz : cz = root := getZone_nil_matched hget
        subst hcz
        exact absurd hns hrec
      | cons c cps =>
        subst hcp
        obtain ⟨⟨cp2, z2⟩, hg2⟩ := getZone_isSome hzt ((c :: cps).drop 1)
        have hlen2 : cp2.length ≤ n := by
          have h1 := getZone_matched_le hg2
          simp only [List.length_cons] at hle
          simp only [List.drop_one, List.tail_cons] at h1
          omega
        obtain ⟨res3, h3⟩ := ih cp2 z2 ((c :: cps).drop 1) hlen2 hg2
        refine ⟨res3, ?_⟩
        simp only [findNS]
        rw [if_neg hrec, hg2]
        show findNS now root (cps.length + 1) cp2 z2 = some res3
        refine findNS_mono h3 ?_
        have h1 := getZone_matched_le hg2
        simp only [List.drop_one, List.tail_cons] at h1
        omega

theorem collect_succ {now : Int} {root : Zone} (hzt : Zone.NoZoneTTL root) :
    ∀ {rs : List Record}, (∀ r ∈ rs, (Record.value r).isSome = true) →
      ∃ tl, collectAdditional now root rs = some tl := by
  intro rs
  induction rs with
  | nil => exact fun _ => ⟨[], rfl⟩
  | cons r rest ih =>
    intro hv
    obtain ⟨v, hval⟩ := Option.isSome_iff_exists.mp (hv r (List.mem_cons_self r rest))
    obtain ⟨res, hg⟩ : ∃ x, Zone.getZone now root (splitChar '.' v) = some x :=
      getZone_isSome hzt (splitChar '.' v)
    obtain ⟨tl, htl⟩ := ih (fun x hx => hv x (List.mem_cons_of_mem r hx))
    simp only [collectAdditional, hval, hg, htl]
    split
    · exact ⟨tl, rfl⟩
    · exact ⟨_, rfl⟩

theorem handleNS_iter_shape {net : Net} {now : Int} {dfuel qid : Nat}
    {sub : PyStr → RunRes} {retry : Zone → RunRes} {root : Zone}
    {t n : PyStr} {cp : List PyStr} {cz : Zone} {z : Zone}
    {s : List (PyStr × List Nat)} {r : Option (List Record × List Record)}
    (h : handleNS net now dfuel qid sub retry root t n false cp cz = .out z s r) :
    z = root ∧ s = [] ∧ ∃ a b, r = some (a, b) ∧ a ≠ [] := by
  rw [handleNS] at h
  split at h
  · cases h
  next found hf =>
    rw [if_neg Bool.false_ne_true] at h
    split at h
    · cases h
    next additional hadd =>
      cases h
      exact ⟨rfl, rfl, found.2.2, additional, rfl, (findNS_shape hf).2⟩

theorem iter_out_shape {net : Net} {now : Int} {dfuel qid : Nat} :
    ∀ {fuel : Nat} {root : Zone} {t n : PyStr} {z : Zone}
      {s : List (PyStr × List Nat)} {r : Option (List Record × List Record)},
      queryRecordF net now dfuel qid fuel root t n false = .out z s r →
      z = root ∧ s = [] ∧ ∃ a b, r = some (a, b) ∧ a ≠ [] := by
  intro fuel
  cases fuel with
  | zero =>
    intro root t n z s r h
    rw [queryRecordF] at h
    cases h
  | succ f =>
    intro root t n z s r h
    simp only [queryRecordF] at h
    split at h
    · cases h
    next cp hget =>
      split at h
      · split at h
        next hrec =>
          cases h
          exact ⟨rfl, rfl, _, _, rfl, hrec⟩
        next hrec =>
          split at h
          next hcn =>
            cases h
            exact ⟨rfl, rfl, _, _, rfl, hcn⟩
          next hcn => exact handleNS_iter_shape h
      · exact handleNS_iter_shape h

theorem handleNS_iter_total {net : Net} {now : Int} {dfuel qid : Nat}
    {sub : PyStr → RunRes} {retry : Zone → RunRes} {root : Zone}
    {t n : PyStr} {p cp : List PyStr} {cz : Zone}
    (hzt : Zone.NoZoneTTL root) (hval : Zone.Valued root)
    (hns : (Zone.getRecords now root "NS".toList).1 ≠ [])
    (hget : Zone.getZone now root p = some (cp, cz)) :
    ∃ a b, handleNS net now dfuel qid sub retry root t n false cp cz
        = .out root [] (some (a, b)) ∧ a ≠ [] ∧
      ∀ r ∈ a, (Record.value r).isSome = true := by
  obtain ⟨res, hfind⟩ := findNS_succ hzt hns cp.length cp cz p (Nat.le_refl _) hget
  have hshape := findNS_shape hfind
  have hzv : Zone.Valued res.2.1 :=
    findNS_valued hval (getZone_valued hval hget) hfind
  have hvals : ∀ r ∈ res.2.2, (Record.value r).isSome = true := by
    rw [hshape.1]
    exact getRecords_fst_values hzv _
  obtain ⟨tl, htl⟩ : ∃ tl, collectAdditional now root res.2.2 = some tl :=
    collect_succ hzt hvals
  refine ⟨res.2.2, tl, ?_, hshape.2, hvals⟩
  simp only [handleNS, hfind]
  rw [if_neg Bool.false_ne_true]
  simp only [htl]

theorem iter_total {net : Net} {now : Int} {dfuel qid : Nat} {fuel : Nat}
    {root : Zone} {t n : PyStr} (hf : 1 ≤ fuel) (hzt : Zone.NoZoneTTL root)
    (hval : Zone.Valued root)
    (hns : (Zone.getRecords now root "NS".toList).1 ≠ []) :
    ∃ a b, queryRecordF net now dfuel qid fuel root t n false
        = .out root [] (some (a, b)) ∧ a ≠ [] ∧
      ∀ r ∈ a, (Record.value r).isSome = true := by
  cases fuel with
  | zero => omega
  | succ f =>
    obtain ⟨cpz, hget⟩ : ∃ x, Zone.getZone now root (splitChar '.' n) = some x :=
      getZone_isSome hzt _
    have hczv : Zone.Valued cpz.2 := getZone_valued hval hget
    simp only [queryRecordF, hget]
    by_cases hlen : cpz.1.length = (splitChar '.' n).length
    · rw [if_pos hlen]
      by_cases hrec : (Zone.getRecords now cpz.2 t).1 ≠ []
      · rw [if_pos hrec]
        exact ⟨_, [], rfl, hrec, getRecords_fst_values hczv t⟩
      · rw [if_neg hrec]
        by_cases hcn : (Zone.getRecords now cpz.2 "CNAME".toList).1 ≠ []
        · rw [if_pos hcn]
          exact ⟨_, [], rfl, hcn, getRecords_fst_values hczv _⟩
        · rw [if_neg hcn]
          exact handleNS_iter_total hzt hval hns hget
    · rw [if_neg hlen]
      exact handleNS_iter_total hzt hval hns hget

/-- Observation helper: the k-th state of the upward delegation walk, stepping
    exactly as the source loop does — drop the most specific label of the
    matched path and look the remainder up from the root again. -/
def nsWalk (now : Int) (root : Zone) :
    Nat → List PyStr × Zone → Option (List PyStr × Zone)
  | 0, pz => some pz
  | k + 1, pz =>
    match root.getZone now (pz.1.drop 1) with
    | none => none
    | some pz2 => nsWalk now root k pz2

theorem nsWalk_char {now : Int} {root : Zone} (hzt : Zone.NoZoneTTL root)
    (hns : (Zone.getRecords now root "NS".toList).1 ≠ []) :
    ∀ (n : Nat) (cp : List PyStr) (cz : Zone) (p : List PyStr),
      cp.length ≤ n → Zone.getZone now root p = some (cp, cz) →
      ∃ k pk zk, k ≤ cp.length ∧ nsWalk now root k (cp, cz) = some (pk, zk) ∧
        findNS now root (cp.length + 1) cp cz
          = some (pk, zk, (Zone.getRecords now zk "NS".toList).1) ∧
        (Zone.getRecords now zk "NS".toList).1 ≠ [] ∧
        ∀ j pj zj, j < k → nsWalk now root j (cp, cz) = some (pj, zj) →
          (Zone.getRecords now zj "NS".toList).1 = [] := by
  intro n
  induction n with
  | zero =>
    intro cp cz p hle hget
    have hcp : cp = [] := List.length_eq_zero.mp (Nat.le_zero.mp hle)
    subst hcp
    have hcz : cz = root := getZone_nil_matched hget
    subst hcz
    refine ⟨0, [], cz, Nat.le_refl 0, rfl, ?_, hns, fun j pj zj hj _ => by omega⟩
    simp only [findNS]
    rw [if_pos hns]
  | succ n ih =>
    intro cp cz p hle hget
    by_cases hrec : (Zone.getRecords now cz "NS".toList).1 ≠ []
    · refine ⟨0, cp, cz, Nat.zero_le _, rfl, ?_, hrec,
        fun j pj zj hj _ => by omega⟩
      simp only [findNS]
      rw [if_pos hrec]
    · cases hcp : cp with
      | nil =>
        subst hcp
        have hcz : cz = root := getZone_nil_matched hget
        subst hcz
        exact absurd hns hrec
      | cons c cps =>
        subst hcp
        obtain ⟨⟨cp2, z2⟩, hg2⟩ :
            ∃ x, Zone.getZone now root ((c :: cps).drop 1) = some x :=
          getZone_isSome hzt _
        have hlen2 : cp2.length ≤ n := by
          have h1 := getZone_matched_le hg2
          simp only [List.length_cons] at hle
          simp only [List.drop_one, List.tail_cons] at h1
          omega
        obtain ⟨k2, pk, zk, hk2le, hwalk, hfind, hne, hmin⟩ :=
          ih cp2 z2 ((c :: cps).drop 1) hlen2 hg2
        refine ⟨k2 + 1, pk, zk, ?_, ?_, ?_, hne, ?_⟩
        · have h1 := getZone_matched_le hg2
          simp only [List.drop_one, List.tail_cons, List.length_cons] at h1 ⊢
          omega
        · rw [nsWalk]
          simp only [List.drop_one, List.tail_cons] at hg2 ⊢
          rw [hg2]
          exact hwalk
        · simp only [findNS]
          rw [if_neg hrec, hg2]
          show findNS now root (cps.length + 1) cp2 z2
            = some (pk, zk, (Zone.getRecords now zk "NS".toList).1)
          refine findNS_mono hfind ?_
          have h1 := getZone_matched_le hg2
          simp only [List.drop_one, List.tail_cons] at h1
          omega
        · intro j pj zj hj hwj
          cases j with
          | zero =>
            rw [nsWalk] at hwj
            cases hwj
            exact not_not.mp hrec
          | succ j2 =>
            rw [nsWalk] at hwj
            simp only [List.drop_one, List.tail_cons] at hwj hg2
            rw [hg2] at hwj
            exact hmin j2 pj zj (by omega) hwj

/-- C7: under the precondition that the root zone holds unexpired NS records
    (its seeded never-expiring hints guarantee this at every time), the
    delegation-search loop of `queryRecord` terminates on the fuel the model
    gives it: starting from the closest matched zone it stops after some
    k ≤ |matched path| upward steps at the nearest zone of the upward walk
    holding unexpired NS records, yields exactly that zone's unexpired NS
    records, and every zone strictly nearer in the walk holds none. -/
theorem claim_C7 {now : Int} {root : Zone} {p cp : List PyStr} {cz : Zone}
    (hzt : Zone.NoZoneTTL root)
    (hns : (Zone.getRecords now root "NS".toList).1 ≠ [])
    (hget : Zone.getZone now root p = some (cp, cz)) :
    ∃ k pk zk, k ≤ cp.length ∧ nsWalk now root k (cp, cz) = some (pk, zk) ∧
      findNS now root (cp.length + 1) cp cz
        = some (pk, zk, (Zone.getRecords now zk "NS".toList).1) ∧
      (Zone.getRecords now zk "NS".toList).1 ≠ [] ∧
      ∀ j pj zj, j < k → nsWalk now root j (cp, cz) = some (pj, zj) →
        (Zone.getRecords now zj "NS".toList).1 = [] :=
  nsWalk_char hzt hns cp.length cp cz p (Nat.le_refl _) hget

/-- C10: with `recursive=false`, `queryRecord` is total over the cache alone.
    First conjunct (any cache, any fuel): every completed iterative run leaves
    the cache untouched, contacts no upstream server, and returns a pair —
    never the Python `None` failure signal — whose first list is nonempty; so
    both the `None` signal and the empty `([], [])` result can arise only in
    recursive mode.  Second conjunct: on every cache the program can build
    (never-expiring zone nodes, valued records, unexpired NS records at the
    root) the iterative run does complete with such a pair. -/
theorem claim_C10 :
    (∀ (net : Net) (now : Int) (dfuel qid fuel : Nat) (root : Zone)
       (t n : PyStr) (z : Zone) (s : List (PyStr × List Nat))
       (r : Option (List Record × List Record)),
      queryRecordF net now dfuel qid fuel root t n false = .out z s r →
      z = root ∧ s = [] ∧ ∃ a b, r = some (a, b) ∧ a ≠ []) ∧
    (∀ (net : Net) (now : Int) (dfuel qid fuel : Nat) (root : Zone)
       (t n : PyStr), 1 ≤ fuel → Zone.NoZoneTTL root → Zone.Valued root →
      (Zone.getRecords now root "NS".toList).1 ≠ [] →
      ∃ a b, queryRecordF net now dfuel qid fuel root t n false
          = .out root [] (some (a, b)) ∧ a ≠ []) := by
  refine ⟨fun _ _ _ _ _ _ _ _ _ _ _ h => iter_out_shape h,
    fun net now dfuel qid fuel root t n hf hzt hval hns => ?_⟩
  obtain ⟨a, b, heq, hne, _⟩ := iter_total hf hzt hval hns
  exact ⟨a, b, heq, hne⟩

/-- A small cache used by the engine witnesses: the root holds one NS hint
    pointing at `ns`, whose zone holds that server's A record. -/
def miniCache : Zone :=
  Zone.mk
    [("ns".toList,
      Zone.mk []
        [Record.make 0 (some "A".toList) "ns".toList (some "9.9.9.9".toList) (-1)]
        (-1) 0)]
    [Record.make 0 (some "NS".toList) "".toList (some "ns".toList) (-1)]
    (-1) 0

/-- C10 (witness): the totality conjunct evaluated on the small seeded cache. -/
theorem claim_C10_witness :
    (1 ≤ 1) ∧
    ∃ a b, queryRecordF (fun _ _ => []) 0 0 0 1 miniCache "A".toList
        "ns".toList false = .out miniCache [] (some (a, b)) ∧ a ≠ [] :=
  ⟨Nat.le_refl 1,
   claim_C10.2 (fun _ _ => []) 0 0 0 1 miniCache "A".toList "ns".toList
     (Nat.le_refl 1)
     (noZoneTTLB_sound (show Zone.noZoneTTLB 2 miniCache = true by decide))
     (valuedB_sound (show Zone.valuedB 2 miniCache = true by decide))
     (by decide)⟩

/-- The closest matched zone of the C7 witness lookup (the `net` zone of the
    seeded root). -/
def c7DemoZone : Zone :=
  ((Zone.getZone 0 rootZone ["x".toList, "net".toList]).map Prod.snd).getD rootZone

/-- C7 (witness): the delegation walk from the `net` zone of the seeded root,
    queried for the unknown name `x.net`. -/
theorem claim_C7_witness :
    ∃ k pk zk, k ≤ ["net".toList].length ∧
      nsWalk 0 rootZone k (["net".toList], c7DemoZone) = some (pk, zk) ∧
      findNS 0 rootZone (["net".toList].length + 1) ["net".toList] c7DemoZone
        = some (pk, zk, (Zone.getRecords 0 zk "NS".toList).1) ∧
      (Zone.getRecords 0 zk "NS".toList).1 ≠ [] ∧
      ∀ j pj zj, j < k →
        nsWalk 0 rootZone j (["net".toList], c7DemoZone) = some (pj, zj) →
        (Zone.getRecords 0 zj "NS".toList).1 = [] :=
  claim_C7
    (noZoneTTLB_sound (show Zone.noZoneTTLB 4 rootZone = true by decide))
    (by decide)
    (show Zone.getZone 0 rootZone ["x".toList, "net".toList]
      = some (["net".toList], c7DemoZone) by rfl)

/-- The response a send in the log would decode to carries code NXDOMAIN. -/
def nxResp (net : Net) (now : Int) (dfuel : Nat) (s : PyStr × List Nat) : Prop :=
  ∃ resp, DNSMessage.fromMessage now dfuel (net s.1 s.2) = some resp ∧
    resp.respCode = some "NXDOMAIN".toList

/-- The response a send in the log would decode to is an error (any code other
    than NOERROR and NXDOMAIN, a query flag, or an unknown code). -/
def errResp (net : Net) (now : Int) (dfuel : Nat) (s : PyStr × List Nat) : Prop :=
  ∃ resp, DNSMessage.fromMessage now dfuel (net s.1 s.2) = some resp ∧
    resp.error = true

theorem handleNS_nxdomain {net : Net} {now : Int} {dfuel qid : Nat}
    {sub : PyStr → RunRes} {retry : Zone → RunRes} {root : Zone}
    {t n : PyStr} {p cp : List PyStr} {cz : Zone}
    (hzt : Zone.NoZoneTTL root) (hval : Zone.Valued root)
    (hns : (Zone.getRecords now root "NS".toList).1 ≠ [])
    (hget : Zone.getZone now root p = some (cp, cz))
    (hsub : ∀ nsname, ∃ a b, sub nsname = .out root [] (some (a, b)) ∧
      a ≠ [] ∧ ∀ r ∈ a, (Record.value r).isSome = true)
    (hq : ((upstreamQueryMsg now qid t n).payload).isSome = true)
    (hnx : ∀ addr req, ∃ resp,
      DNSMessage.fromMessage now dfuel (net addr req) = some resp ∧
      resp.respCode = some "NXDOMAIN".toList) :
    ∃ s, handleNS net now dfuel qid sub retry root t n true cp cz
        = .out root [s] (some ([], [])) := by
  obtain ⟨res, hfind⟩ := findNS_succ hzt hns cp.length cp cz p (Nat.le_refl _) hget
  have hshape := findNS_shape hfind
  have hzv : Zone.Valued res.2.1 :=
    findNS_valued hval (getZone_valued hval hget) hfind
  have hvals : ∀ r ∈ res.2.2, (Record.value r).isSome = true := by
    rw [hshape.1]
    exact getRecords_fst_values hzv _
  simp only [handleNS, hfind]
  rw [if_pos trivial]
  cases hrl : res.2.2 with
  | nil => exact absurd hrl hshape.2
  | cons ns1 rest =>
    obtain ⟨nsname, hnsv⟩ := Option.isSome_iff_exists.mp
      (hvals ns1 (by rw [hrl]; exact List.mem_cons_self ns1 rest))
    obtain ⟨a, b, hseq, hane, havals⟩ := hsub nsname
    simp only [tryNS, hnsv, hseq]
    rw [if_neg hane]
    cases hal : a with
    | nil => exact absurd hal hane
    | cons a1 arest =>
      obtain ⟨addr, hadv⟩ := Option.isSome_iff_exists.mp
        (havals a1 (by rw [hal]; exact List.mem_cons_self a1 arest))
      obtain ⟨req, hreq⟩ := Option.isSome_iff_exists.mp hq
      obtain ⟨resp, hresp, hrc⟩ := hnx addr req
      have herr : resp.error = false := by
        rw [DNSMessage.error, hrc]
        decide
      simp only [tryAddrs, hadv, hreq, hresp, herr]
      rw [if_neg (by simp), if_pos hrc]
      exact ⟨(addr, req), rfl⟩

/-- C6: during recursive resolution, whenever every upstream response decodes
    to NXDOMAIN (so in particular the first contacted server answers
    NXDOMAIN), `queryRecord` either answers from the cache without contacting
    anyone at all, or sends exactly one upstream query and returns `([], [])`
    immediately — no further address or NS candidate is contacted and no retry
    happens.  The cache hypotheses are the shape of every cache the program
    builds; `hq` says the query message itself is encodable. -/
theorem claim_C6 (net : Net) (now : Int) (dfuel qid f : Nat) (root : Zone)
    (t n : PyStr) (hzt : Zone.NoZoneTTL root) (hval : Zone.Valued root)
    (hns : (Zone.getRecords now root "NS".toList).1 ≠ [])
    (hq : ((upstreamQueryMsg now qid t n).payload).isSome = true)
    (hnx : ∀ addr req, ∃ resp,
      DNSMessage.fromMessage now dfuel (net addr req) = some resp ∧
      resp.respCode = some "NXDOMAIN".toList) :
    ∃ sends r, queryRecordF net now dfuel qid (f + 2) root t n true
        = .out root sends r ∧
      ((sends = [] ∧ ∃ a b, r = some (a, b) ∧ a ≠ []) ∨
       (∃ s, sends = [s] ∧ r = some ([], []))) := by
  obtain ⟨cpz, hget⟩ : ∃ x, Zone.getZone now root (splitChar '.' n) = some x :=
    getZone_isSome hzt _
  have hczv : Zone.Valued cpz.2 := getZone_valued hval hget
  have hsub : ∀ nsname, ∃ a b,
      queryRecordF net now dfuel qid (f + 1) root "A".toList nsname false
        = .out root [] (some (a, b)) ∧ a ≠ [] ∧
      ∀ r ∈ a, (Record.value r).isSome = true :=
    fun nsname => iter_total (by omega) hzt hval hns
  have hmain : ∃ s, handleNS net now dfuel qid
      (fun nsname =>
        queryRecordF net now dfuel qid (f + 1) root "A".toList nsname false)
      (fun r3 => queryRecordF net now dfuel qid (f + 1) r3 t n true)
      root t n true cpz.1 cpz.2 = .out root [s] (some ([], [])) :=
    handleNS_nxdomain hzt hval hns hget hsub hq hnx
  simp only [queryRecordF, hget]
  by_cases hlen : cpz.1.length = (splitChar '.' n).length
  · rw [if_pos hlen]
    by_cases hrec : (Zone.getRecords now cpz.2 t).1 ≠ []
    · rw [if_pos hrec]
      exact ⟨[], some ((Zone.getRecords now cpz.2 t).1, []), rfl,
        Or.inl ⟨rfl, _, _, rfl, hrec⟩⟩
    · rw [if_neg hrec]
      by_cases hcn : (Zone.getRecords now cpz.2 "CNAME".toList).1 ≠ []
      · rw [if_pos hcn]
        exact ⟨[], some ((Zone.getRecords now cpz.2 "CNAME".toList).1, []), rfl,
          Or.inl ⟨rfl, _, _, rfl, hcn⟩⟩
      · rw [if_neg hcn]
        obtain ⟨s, hs⟩ := hmain
        exact ⟨[s], some ([], []), hs, Or.inr ⟨s, rfl, rfl⟩⟩
  · rw [if_neg hlen]
    obtain ⟨s, hs⟩ := hmain
    exact ⟨[s], some ([], []), hs, Or.inr ⟨s, rfl, rfl⟩⟩

/-- The reply datagram of the C6 witness oracle: an NXDOMAIN response. -/
def nxdomainNet : Net := fun _ _ => [0, 0, 128, 3, 0, 0, 0, 0, 0, 0, 0, 0]

/-- The message the witness oracle's datagram decodes to. -/
def nxRespMsg : DNSMessage :=
  ⟨0, some "NXDOMAIN".toList, false, false, [], [], [], []⟩

/-- C6 (witness): the claim applied to the small seeded cache and an oracle
    answering NXDOMAIN to everything. -/
theorem claim_C6_witness :
    ∃ sends r, queryRecordF nxdomainNet 0 1 0 (0 + 2) miniCache "A".toList
        "x".toList true = .out miniCache sends r ∧
      ((sends = [] ∧ ∃ a b, r = some (a, b) ∧ a ≠ []) ∨
       (∃ s, sends = [s] ∧ r = some ([], []))) :=
  claim_C6 nxdomainNet 0 1 0 0 miniCache "A".toList "x".toList
    (noZoneTTLB_sound (show Zone.noZoneTTLB 2 miniCache = true by decide))
    (valuedB_sound (show Zone.valuedB 2 miniCache = true by decide))
    (by decide)
    (by decide)
    (fun addr req => ⟨nxRespMsg, rfl, rfl⟩)

theorem tryAddrs_nx {net : Net} {now : Int} {dfuel qid : Nat}
    {retry : Zone → RunRes} {root : Zone} {t n : PyStr}
    (hretry : ∀ r3 z s r, retry r3 = .out z s r → r = some ([], []) →
      ∃ send ∈ s, nxResp net now dfuel send) :
    ∀ (addrs : List Record) (z : Zone) (s : List (PyStr × List Nat))
      (r : Option (List Record × List Record)),
      tryAddrs net now dfuel qid retry root t n addrs = .out z s r →
      r = some ([], []) → ∃ send ∈ s, nxResp net now dfuel send := by
  intro addrs
  induction addrs with
  | nil =>
    intro z s r h _
    rw [tryAddrs] at h
    cases h
  | cons a rest ih =>
    intro z s r h hr
    simp only [tryAddrs] at h
    split at h
    · cases h
    next addr hav =>
      split at h
      · cases h
      next req hreq =>
        split at h
        · cases h
        next resp hresp =>
          split at h
          · split at h
            · cases h
            · cases h
            next z2 sends2 r2 hrest =>
              cases h
              obtain ⟨send, hmem, hnx⟩ := ih _ _ _ hrest hr
              exact ⟨send, List.mem_cons_of_mem _ hmem, hnx⟩
          · split at h
            next hnxd =>
              cases h
              exact ⟨(addr, req), List.mem_cons_self _ _, resp, hresp, hnxd⟩
            next hnxd =>
              split at h
              · cases h
              next r1 h1 =>
                split at h
                · cases h
                next r2 h2 =>
                  split at h
                  · cases h
                  next r3 h3 =>
                    split at h
                    · cases h
                    · cases h
                    next z4 s4 r4 hretry4 =>
                      cases h
                      obtain ⟨send, hmem, hnx⟩ := hretry _ _ _ _ hretry4 hr
                      exact ⟨send, List.mem_cons_of_mem _ hmem, hnx⟩

theorem tryNS_nx {net : Net} {now : Int} {dfuel qid : Nat}
    {sub : PyStr → RunRes} {retry : Zone → RunRes} {root : Zone} {t n : PyStr}
    (hsub : ∀ nsname z s r, sub nsname = .out z s r →
      ∃ a b, r = some (a, b) ∧ a ≠ [])
    (hretry : ∀ r3 z s r, retry r3 = .out z s r → r = some ([], []) →
      ∃ send ∈ s, nxResp net now dfuel send) :
    ∀ (nsl : List Record) (z : Zone) (s : List (PyStr × List Nat))
      (r : Option (List Record × List Record)),
      tryNS net now dfuel qid sub retry root t n nsl = .out z s r →
      r = some ([], []) → ∃ send ∈ s, nxResp net now dfuel send := by
  intro nsl
  induction nsl with
  | nil =>
    intro z s r h hr
    rw [tryNS] at h
    cases h
    cases hr
  | cons ns rest ih =>
    intro z s r h hr
    simp only [tryNS] at h
    split at h
    · cases h
    next nsname hnsv =>
      split at h
      · cases h
      · cases h
      · cases h
      next z1 s1 recNA hsubeq =>
        split at h
        next hempty =>
          obtain ⟨a, b, hab, hane⟩ := hsub _ _ _ _ hsubeq
          cases hab
          exact absurd hempty hane
        next hempty =>
          split at h
          · cases h
          next sendsA htA =>
            split at h
            · cases h
            · cases h
            next z2 s2 r2 hrest =>
              cases h
              obtain ⟨send, hmem, hnx⟩ := ih _ _ _ hrest hr
              exact ⟨send, List.mem_append_right _ hmem, hnx⟩
          next z2 s2 r2 htA =>
            cases h
            exact tryAddrs_nx hretry _ _ _ _ htA hr

theorem out_empty_nx {net : Net} {now : Int} {dfuel qid : Nat} :
    ∀ (fuel : Nat) (root : Zone) (t n : PyStr) (rec : Bool) (z : Zone)
      (s : List (PyStr × List Nat)) (r : Option (List Record × List Record)),
      queryRecordF net now dfuel qid fuel root t n rec = .out z s r →
      r = some ([], []) → ∃ send ∈ s, nxResp net now dfuel send := by
  intro fuel
  induction fuel with
  | zero =>
    intro root t n rec z s r h _
    rw [queryRecordF] at h
    cases h
  | succ f ih =>
    intro root t n rec z s r h hr
    cases rec with
    | false =>
      obtain ⟨_, _, a, b, hab, hane⟩ := iter_out_shape h
      rw [hr] at hab
      cases hab
      exact absurd rfl hane
    | true =>
      simp only [queryRecordF] at h
      split at h
      · cases h
      next cp hget =>
        have hns : ∀ (z : Zone) (s : List (PyStr × List Nat))
            (r : Option (List Record × List Record)),
            handleNS net now dfuel qid
              (fun nsname =>
                queryRecordF net now dfuel qid f root "A".toList nsname false)
              (fun r3 => queryRecordF net now dfuel qid f r3 t n true)
              root t n true cp.1 cp.2 = .out z s r →
            r = some ([], []) → ∃ send ∈ s, nxResp net now dfuel send := by
          intro z s r h2 hr2
          rw [handleNS] at h2
          split at h2
          · cases h2
          next found hfind =>
            rw [if_pos rfl] at h2
            refine tryNS_nx ?_ ?_ _ _ _ _ h2 hr2
            · intro nsname z3 s3 r3 h3
              obtain ⟨_, _, hres⟩ := iter_out_shape h3
              exact hres
            · intro r3 z3 s3 r4 h3 hr3
              exact ih _ _ _ _ _ _ _ h3 hr3
        split at h
        · split at h
          next hrec =>
            cases h
            rw [Option.some_inj, Prod.ext_iff] at hr
            exact absurd hr.1 hrec
          next hrec =>
            split at h
            next hcn =>
              cases h
              rw [Option.some_inj, Prod.ext_iff] at hr
              exact absurd hr.1 hcn
            next hcn => exact hns _ _ _ h hr
        · exact hns _ _ _ h hr

theorem tryAddrs_thru_err {net : Net} {now : Int} {dfuel qid : Nat}
    {retry : Zone → RunRes} {root : Zone} {t n : PyStr} :
    ∀ (addrs : List Record) (s : List (PyStr × List Nat)),
      tryAddrs net now dfuel qid retry root t n addrs = .thru s →
      (∀ send ∈ s, errResp net now dfuel send) ∧ (addrs ≠ [] → s ≠ []) := by
  intro addrs
  induction addrs with
  | nil =>
    intro s h
    rw [tryAddrs] at h
    cases h
    exact ⟨fun send hs => absurd hs (List.not_mem_nil _), fun hc => absurd rfl hc⟩
  | cons a rest ih =>
    intro s h
    simp only [tryAddrs] at h
    split at h
    · cases h
    next addr hav =>
      split at h
      · cases h
      next req hreq =>
        split at h
        · cases h
        next resp hresp =>
          split at h
          next herr =>
            split at h
            · cases h
            next sends2 hrest =>
              cases h
              obtain ⟨hall, _⟩ := ih _ hrest
              refine ⟨?_, fun _ => by simp⟩
              intro send hs
              rcases List.mem_cons.mp hs with h1 | h2
              · subst h1
                exact ⟨resp, hresp, herr⟩
              · exact hall _ h2
            next z2 s2 r2 hrest => cases h
          next herr =>
            split at h
            next => cases h
            next =>
              split at h
              · cases h
              next r1 h1 =>
                split at h
                · cases h
                next r2 h2 =>
                  split at h
                  · cases h
                  next r3 h3 =>
                    split at h
                    · cases h
                    · cases h
                    next z4 s4 r4 h4 => cases h

theorem tryAddrs_err {net : Net} {now : Int} {dfuel qid : Nat}
    {retry : Zone → RunRes} {root : Zone} {t n : PyStr}
    (hretry : ∀ r3 z s r, retry r3 = .out z s r → r = none →
      ∃ pre suf, s = pre ++ suf ∧ suf ≠ [] ∧
        ∀ send ∈ suf, errResp net now dfuel send) :
    ∀ (addrs : List Record) (z : Zone) (s : List (PyStr × List Nat))
      (r : Option (List Record × List Record)),
      tryAddrs net now dfuel qid retry root t n addrs = .out z s r → r = none →
      ∃ pre suf, s = pre ++ suf ∧ suf ≠ [] ∧
        ∀ send ∈ suf, errResp net now dfuel send := by
  intro addrs
  induction addrs with
  | nil =>
    intro z s r h _
    rw [tryAddrs] at h
    cases h
  | cons a rest ih =>
    intro z s r h hr
    simp only [tryAddrs] at h
    split at h
    · cases h
    next addr hav =>
      split at h
      · cases h
      next req hreq =>
        split at h
        · cases h
        next resp hresp =>
          split at h
          next herr =>
            split at h
            · cases h
            · cases h
            next z2 s2 r2 hrest =>
              cases h
              obtain ⟨pre, suf, hsplit, hne, hall⟩ := ih _ _ _ hrest hr
              exact ⟨(addr, req) :: pre, suf, by rw [hsplit]; rfl, hne, hall⟩
          next herr =>
            split at h
            next hnxd =>
              cases h
              cases hr
            next hnxd =>
              split at h
              · cases h
              next r1 h1 =>
                split at h
                · cases h
                next r2 h2 =>
                  split at h
                  · cases h
                  next r3 h3 =>
                    split at h
                    · cases h
                    · cases h
                    next z4 s4 r4 h4 =>
                      cases h
                      obtain ⟨pre, suf, hsplit, hne, hall⟩ :=
                        hretry _ _ _ _ h4 hr
                      exact ⟨(addr, req) :: pre, suf, by rw [hsplit]; rfl,
                        hne, hall⟩

theorem tryNS_err {net : Net} {now : Int} {dfuel qid : Nat}
    {sub : PyStr → RunRes} {retry : Zone → RunRes} {root : Zone} {t n : PyStr}
    (hsub : ∀ nsname z s r, sub nsname = .out z s r →
      ∃ a b, r = some (a, b) ∧ a ≠ [])
    (hretry : ∀ r3 z s r, retry r3 = .out z s r → r = none →
      ∃ pre suf, s = pre ++ suf ∧ suf ≠ [] ∧
        ∀ send ∈ suf, errResp net now dfuel send) :
    ∀ (nsl : List Record) (z : Zone) (s : List (PyStr × List Nat))
      (r : Option (List Record × List Record)),
      tryNS net now dfuel qid sub retry root t n nsl = .out z s r → r = none →
      (nsl = [] ∧ s = []) ∨
      ∃ pre suf, s = pre ++ suf ∧ suf ≠ [] ∧
        ∀ send ∈ suf, errResp net now dfuel send := by
  intro nsl
  induction nsl with
  | nil =>
    intro z s r h _
    rw [tryNS] at h
    cases h
    exact Or.inl ⟨rfl, rfl⟩
  | cons ns rest ih =>
    intro z s r h hr
    simp only [tryNS] at h
    split at h
    · cases h
    next nsname hnsv =>
      split at h
      · cases h
      · cases h
      · cases h
      next z1 s1 recNA hsubeq =>
        split at h
        next hempty =>
          cases h
          cases hr
        next hempty =>
          split at h
          · cases h
          next sendsA htA =>
            obtain ⟨hallA, hneA⟩ := tryAddrs_thru_err _ _ htA
            have hAne : sendsA ≠ [] := by
              obtain ⟨a, b, hab, hane⟩ := hsub _ _ _ _ hsubeq
              cases hab
              exact hneA (by
                intro hx
                rw [hx] at hempty
                exact hempty rfl)
            split at h
            · cases h
            · cases h
            next z2 s2 r2 hrest =>
              cases h
              rcases ih _ _ _ hrest hr with ⟨_, hs2⟩ | ⟨pre2, suf2, hsp, hne2, hall2⟩
              · subst hs2
                exact Or.inr ⟨[], sendsA, by simp, hAne, hallA⟩
              · exact Or.inr ⟨sendsA ++ pre2, suf2,
                  by rw [hsp, List.append_assoc], hne2, hall2⟩
          next z2 s2 r2 htA =>
            cases h
            exact Or.inr (tryAddrs_err hretry _ _ _ _ htA hr)

theorem out_none_err {net : Net} {now : Int} {dfuel qid : Nat} :
    ∀ (fuel : Nat) (root : Zone) (t n : PyStr) (rec : Bool) (z : Zone)
      (s : List (PyStr × List Nat)) (r : Option (List Record × List Record)),
      queryRecordF net now dfuel qid fuel root t n rec = .out z s r → r = none →
      s ≠ [] ∧ ∃ pre suf, s = pre ++ suf ∧ suf ≠ [] ∧
        ∀ send ∈ suf, errResp net now dfuel send := by
  intro fuel
  induction fuel with
  | zero =>
    intro root t n rec z s r h _
    rw [queryRecordF] at h
    cases h
  | succ f ih =>
    intro root t n rec z s r h hr
    cases rec with
    | false =>
      obtain ⟨_, _, a, b, hab, _⟩ := iter_out_shape h
      rw [hr] at hab
      cases hab
    | true =>
      simp only [queryRecordF] at h
      split at h
      · cases h
      next cp hget =>
        have hmain : ∀ (z : Zone) (s : List (PyStr × List Nat))
            (r : Option (List Record × List Record)),
            handleNS net now dfuel qid
              (fun nsname =>
                queryRecordF net now dfuel qid f root "A".toList nsname false)
              (fun r3 => queryRecordF net now dfuel qid f r3 t n true)
              root t n true cp.1 cp.2 = .out z s r →
            r = none →
            s ≠ [] ∧ ∃ pre suf, s = pre ++ suf ∧ suf ≠ [] ∧
              ∀ send ∈ suf, errResp net now dfuel send := by
          intro z s r h2 hr2
          rw [handleNS] at h2
          split at h2
          · cases h2
          next found hfind =>
            rw [if_pos rfl] at h2
            have hstep := tryNS_err
              (fun nsname z3 s3 r3 h3 => (iter_out_shape h3).2.2)
              (fun r3 z3 s3 r4 h3 hr3 => (ih _ _ _ _ _ _ _ h3 hr3).2)
              _ _ _ _ h2 hr2
            rcases hstep with ⟨hfound, _⟩ | ⟨pre, suf, hsp, hne, hall⟩
            · exact absurd hfound (findNS_shape hfind).2
            · refine ⟨?_, pre, suf, hsp, hne, hall⟩
              rw [hsp]
              exact fun hx => hne (List.append_eq_nil.mp hx).2
        split at h
        · split at h
          next hrec =>
            cases h
            cases hr
          next hrec =>
            split at h
            next hcn =>
              cases h
              cases hr
            next hcn => exact hmain _ _ _ h hr
        · exact hmain _ _ _ h hr

theorem tryAddrs_allerr {net : Net} {now : Int} {dfuel qid : Nat}
    {retry : Zone → RunRes} {root : Zone} {t n : PyStr}
    (herr : ∀ addr req, ∃ resp,
      DNSMessage.fromMessage now dfuel (net addr req) = some resp ∧
      resp.error = true)
    (hq : ((upstreamQueryMsg now qid t n).payload).isSome = true) :
    ∀ (addrs : List Record), (∀ x ∈ addrs, (Record.value x).isSome = true) →
      ∃ s, tryAddrs net now dfuel qid retry root t n addrs = .thru s ∧
        (addrs ≠ [] → s ≠ []) := by
  intro addrs
  induction addrs with
  | nil => exact fun _ => ⟨[], rfl, fun hc => absurd rfl hc⟩
  | cons a rest ih =>
    intro hv
    obtain ⟨addr, hav⟩ := Option.isSome_iff_exists.mp
      (hv a (List.mem_cons_self _ _))
    obtain ⟨req, hreq⟩ := Option.isSome_iff_exists.mp hq
    obtain ⟨resp, hresp, he⟩ := herr addr req
    obtain ⟨s2, hs2, _⟩ := ih (fun x hx => hv x (List.mem_cons_of_mem _ hx))
    refine ⟨(addr, req) :: s2, ?_, fun _ => by simp⟩
    simp only [tryAddrs, hav, hreq, hresp, he]
    rw [if_pos trivial]
    simp only [hs2]

theorem tryNS_allerr {net : Net} {now : Int} {dfuel qid : Nat}
    {sub : PyStr → RunRes} {retry : Zone → RunRes} {root : Zone} {t n : PyStr}
    (hsub : ∀ nsname, ∃ a b, sub nsname = .out root [] (some (a, b)) ∧
      a ≠ [] ∧ ∀ r ∈ a, (Record.value r).isSome = true)
    (herr : ∀ addr req, ∃ resp,
      DNSMessage.fromMessage now dfuel (net addr req) = some resp ∧
      resp.error = true)
    (hq : ((upstreamQueryMsg now qid t n).payload).isSome = true) :
    ∀ (nsl : List Record), (∀ x ∈ nsl, (Record.value x).isSome = true) →
      ∃ s, tryNS net now dfuel qid sub retry root t n nsl = .out root s none ∧
        (nsl ≠ [] → s ≠ []) := by
  intro nsl
  induction nsl with
  | nil => exact fun _ => ⟨[], rfl, fun hc => absurd rfl hc⟩
  | cons ns rest ih =>
    intro hv
    obtain ⟨nsname, hnsv⟩ := Option.isSome_iff_exists.mp
      (hv ns (List.mem_cons_self _ _))
    obtain ⟨a, b, hseq, hane, havals⟩ := hsub nsname
    obtain ⟨sA, hsA, hAne⟩ :
        ∃ s, tryAddrs net now dfuel qid retry root t n a = .thru s ∧
          (a ≠ [] → s ≠ []) :=
      tryAddrs_allerr herr hq a havals
    obtain ⟨s2, hs2, _⟩ := ih (fun x hx => hv x (List.mem_cons_of_mem _ hx))
    refine ⟨sA ++ s2, ?_, fun _ => ?_⟩
    · simp only [tryNS, hnsv, hseq]
      rw [if_neg hane]
      simp only [hsA, hs2]
    · intro hx
      exact hAne hane (List.append_eq_nil.mp hx).1

theorem handleNS_allerr {net : Net} {now : Int} {dfuel qid : Nat}
    {sub : PyStr → RunRes} {retry : Zone → RunRes} {root : Zone}
    {t n : PyStr} {p cp : List PyStr} {cz : Zone}
    (hzt : Zone.NoZoneTTL root) (hval : Zone.Valued root)
    (hns : (Zone.getRecords now root "NS".toList).1 ≠ [])
    (hget : Zone.getZone now root p = some (cp, cz))
    (hsub : ∀ nsname, ∃ a b, sub nsname = .out root [] (some (a, b)) ∧
      a ≠ [] ∧ ∀ r ∈ a, (Record.value r).isSome = true)
    (hq : ((upstreamQueryMsg now qid t n).payload).isSome = true)
    (herr : ∀ addr req, ∃ resp,
      DNSMessage.fromMessage now dfuel (net addr req) = some resp ∧
      resp.error = true) :
    ∃ s, handleNS net now dfuel qid sub retry root t n true cp cz
        = .out root s none ∧ s ≠ [] := by
  obtain ⟨res, hfind⟩ := findNS_succ hzt hns cp.length cp cz p (Nat.le_refl _) hget
  have hshape := findNS_shape hfind
  have hzv : Zone.Valued res.2.1 :=
    findNS_valued hval (getZone_valued hval hget) hfind
  have hvals : ∀ r ∈ res.2.2, (Record.value r).isSome = true := by
    rw [hshape.1]
    exact getRecords_fst_values hzv _
  obtain ⟨s, hs, hne⟩ := tryNS_allerr hsub herr hq res.2.2 hvals
  refine ⟨s, ?_, hne hshape.2⟩
  simp only [handleNS, hfind]
  rw [if_pos trivial]
  exact hs

theorem allerr_exhausts {net : Net} {now : Int} {dfuel qid f : Nat}
    {root : Zone} {t n : PyStr} (hzt : Zone.NoZoneTTL root)
    (hval : Zone.Valued root)
    (hns : (Zone.getRecords now root "NS".toList).1 ≠ [])
    (hq : ((upstreamQueryMsg now qid t n).payload).isSome = true)
    (herr : ∀ addr req, ∃ resp,
      DNSMessage.fromMessage now dfuel (net addr req) = some resp ∧
      resp.error = true) :
    ∃ s r, queryRecordF net now dfuel qid (f + 2) root t n true
        = .out root s r ∧
      ((s = [] ∧ ∃ a b, r = some (a, b) ∧ a ≠ []) ∨ (r = none ∧ s ≠ [])) := by
  obtain ⟨cpz, hget⟩ : ∃ x, Zone.getZone now root (splitChar '.' n) = some x :=
    getZone_isSome hzt _
  have hsub : ∀ nsname, ∃ a b,
      queryRecordF net now dfuel qid (f + 1) root "A".toList nsname false
        = .out root [] (some (a, b)) ∧ a ≠ [] ∧
      ∀ r ∈ a, (Record.value r).isSome = true :=
    fun nsname => iter_total (by omega) hzt hval hns
  have hmain : ∃ s, handleNS net now dfuel qid
      (fun nsname =>
        queryRecordF net now dfuel qid (f + 1) root "A".toList nsname false)
      (fun r3 => queryRecordF net now dfuel qid (f + 1) r3 t n true)
      root t n true cpz.1 cpz.2 = .out root s none ∧ s ≠ [] :=
    handleNS_allerr hzt hval hns hget hsub hq herr
  simp only [queryRecordF, hget]
  by_cases hlen : cpz.1.length = (splitChar '.' n).length
  · rw [if_pos hlen]
    by_cases hrec : (Zone.getRecords now cpz.2 t).1 ≠ []
    · rw [if_pos hrec]
      exact ⟨[], some ((Zone.getRecords now cpz.2 t).1, []), rfl,
        Or.inl ⟨rfl, _, _, rfl, hrec⟩⟩
    · rw [if_neg hrec]
      by_cases hcn : (Zone.getRecords now cpz.2 "CNAME".toList).1 ≠ []
      · rw [if_pos hcn]
        exact ⟨[], some ((Zone.getRecords now cpz.2 "CNAME".toList).1, []), rfl,
          Or.inl ⟨rfl, _, _, rfl, hcn⟩⟩
      · rw [if_neg hcn]
        obtain ⟨s, hs, hne⟩ := hmain
        exact ⟨s, none, hs, Or.inr ⟨rfl, hne⟩⟩
  · rw [if_neg hlen]
    obtain ⟨s, hs, hne⟩ := hmain
    exact ⟨s, none, hs, Or.inr ⟨rfl, hne⟩⟩

/-- C5: outcome signals of `queryRecord` (recursive or not).  First conjunct:
    a completed run returns the empty pair `([], [])` only when one of the
    upstream queries it sent was answered NXDOMAIN by the contacted
    nameserver.  Second conjunct: the `None` failure signal is returned only
    after at least one upstream query whose final retry round consisted
    entirely of error responses — every send after the last successful
    response decodes to an error, i.e. every remaining NS/address candidate
    was exhausted without success.  Third conjunct, the converse reading: when
    every upstream response is an error, a recursive query on a
    program-shaped cache either answers from the cache without network
    contact or returns `None` after sending at least one query. -/
theorem claim_C5 :
    (∀ (net : Net) (now : Int) (dfuel qid fuel : Nat) (root : Zone)
       (t n : PyStr) (rec : Bool) (z : Zone) (s : List (PyStr × List Nat))
       (r : Option (List Record × List Record)),
      queryRecordF net now dfuel qid fuel root t n rec = .out z s r →
      r = some ([], []) → ∃ send ∈ s, nxResp net now dfuel send) ∧
    (∀ (net : Net) (now : Int) (dfuel qid fuel : Nat) (root : Zone)
       (t n : PyStr) (rec : Bool) (z : Zone) (s : List (PyStr × List Nat))
       (r : Option (List Record × List Record)),
      queryRecordF net now dfuel qid fuel root t n rec = .out z s r →
      r = none → s ≠ [] ∧ ∃ pre suf, s = pre ++ suf ∧ suf ≠ [] ∧
        ∀ send ∈ suf, errResp net now dfuel send) ∧
    (∀ (net : Net) (now : Int) (dfuel qid f : Nat) (root : Zone) (t n : PyStr),
      Zone.NoZoneTTL root → Zone.Valued root →
      (Zone.getRecords now root "NS".toList).1 ≠ [] →
      ((upstreamQueryMsg now qid t n).payload).isSome = true →
      (∀ addr req, ∃ resp,
        DNSMessage.fromMessage now dfuel (net addr req) = some resp ∧
        resp.error = true) →
      ∃ s r, queryRecordF net now dfuel qid (f + 2) root t n true
          = .out root s r ∧
        ((s = [] ∧ ∃ a b, r = some (a, b) ∧ a ≠ []) ∨ (r = none ∧ s ≠ []))) :=
  ⟨fun net now dfuel qid fuel root t n rec z s r h hr =>
     out_empty_nx fuel root t n rec z s r h hr,
   fun net now dfuel qid fuel root t n rec z s r h hr =>
     out_none_err fuel root t n rec z s r h hr,
   fun net now dfuel qid f root t n hzt hval hns hq herr =>
     allerr_exhausts hzt hval hns hq herr⟩

/-- The sends of a completed run (observation helper). -/
def RunRes.sendLog : RunRes → List (PyStr × List Nat)
  | .crash => []
  | .thru s => s
  | .out _ s _ => s

/-- The send log of the C5 witness run: the small cache queried recursively
    against the all-NXDOMAIN oracle. -/
def c5DemoSends : List (PyStr × List Nat) :=
  (queryRecordF nxdomainNet 0 1 0 2 miniCache "A".toList "x".toList
    true).sendLog

/-- C5 (witness): the first conjunct applied to the concrete run of the small
    cache against the all-NXDOMAIN oracle, which returns `([], [])` after one
    send. -/
theorem claim_C5_witness :
    queryRecordF nxdomainNet 0 1 0 2 miniCache "A".toList "x".toList true
        = .out miniCache c5DemoSends (some ([], [])) ∧
    ∃ send ∈ c5DemoSends, nxResp nxdomainNet 0 1 send :=
  ⟨by rfl,
   claim_C5.1 nxdomainNet 0 1 0 2 miniCache "A".toList "x".toList true
     miniCache c5DemoSends (some ([], [])) (by rfl) rfl⟩

/-- The C2 counterexample message: one answer record with the default
    never-expiring ttl of -1 (the shape of every seed record), all names
    uncompressed. -/
def c2DemoMsg : DNSMessage :=
  ⟨7, some "NOERROR".toList, true, false, [],
   [Record.make 0 (some "A".toList) "a".toList (some "1.2.3.4".toList) (-1)],
   [], []⟩

/-- The wire form of the counterexample message. -/
def c2DemoBytes : List Nat := c2DemoMsg.payload.getD []

/-- The decode of that wire form. -/
def c2DemoDecoded : DNSMessage :=
  (DNSMessage.fromMessage 0 (c2DemoBytes.length + 1) c2DemoBytes).getD c2DemoMsg

/-- Question-record semantic content: name and type (questions carry no value
    or ttl on the wire). -/
def qSem (r : Record) : Option PyStr × PyStr := (r.recordType, r.name)

/-- Resource-record semantic content: name, type, value and ttl. -/
def rSem (r : Record) : Option PyStr × PyStr × Option PyStr × Int :=
  (r.recordType, r.name, r.value, r.ttl)

/-- C2 (counterexample): a constructible message with uncompressed names whose
    answer carries the never-expiring ttl -1 decodes with ttl 2^31 - 1, so the
    round trip does not keep the record's ttl. -/
theorem claim_C2_counterexample :
    c2DemoMsg.payload = some c2DemoBytes ∧
    DNSMessage.fromMessage 0 (c2DemoBytes.length + 1) c2DemoBytes
      = some c2DemoDecoded ∧
    c2DemoDecoded.id = c2DemoMsg.id ∧
    c2DemoMsg.answers.map Record.ttl = [-1] ∧
    c2DemoDecoded.answers.map Record.ttl = [2147483647] ∧
    ¬ (c2DemoDecoded.answers.map rSem = c2DemoMsg.answers.map rSem) :=
  ⟨rfl, rfl, rfl, rfl, rfl, by decide⟩

/-- Canonical decimal text of a byte value: parses back, is below 256, and is
    exactly what Python's `str` prints for it. -/
def canonNum (p : PyStr) : Bool :=
  match pyIntOpt p with
  | some k => decide (k < 256) && decide (p = ntoa k)
  | none => false

/-- A canonical dotted-quad A value: four canonical byte components. -/
def wfAValue (v : PyStr) : Bool :=
  decide ((splitChar '.' v).length = 4) && (splitChar '.' v).all canonNum

/-- Parse exactly four hex digits. -/
def hex4Parse (g : PyStr) : Option Nat :=
  match g with
  | [a, b, c, d] =>
    match hexVal a, hexVal b, hexVal c, hexVal d with
    | some x, some y, some z, some w =>
      some (((x * 16 + y) * 16 + z) * 16 + w)
    | _, _, _, _ => none
  | _ => none

/-- A canonical four-digit lowercase hex group, exactly as the decoder's
    04x formatting prints it. -/
def canonHex4 (g : PyStr) : Bool :=
  match hex4Parse g with
  | some k => decide (g = toHex4 k)
  | none => false

/-- A canonical AAAA value: eight canonical hex groups. -/
def wfAAAAValue (v : PyStr) : Bool :=
  decide ((splitChar ':' v).length = 8) && (splitChar ':' v).all canonHex4

/-- A well-formed DNS label: nonempty, at most 63 ASCII characters, free of
    whitespace and dots. -/
def wfLabel (l : PyStr) : Bool :=
  !l.isEmpty && decide (l.length ≤ 63) &&
    l.all (fun c => decide (c.toNat < 128) && !isPySpace c && decide (c ≠ '.'))

/-- A well-formed domain name: every dot-separated label well-formed (the
    empty name fails, since its single label is empty). -/
def wfName (s : PyStr) : Bool :=
  (splitChar '.' s).all wfLabel

/-- A record type whose encoding round-trips: it is in the table, its code
    fits two bytes, and the reverse lookup returns the same string. -/
def wfType (t : Option PyStr) : Bool :=
  match t with
  | some ts =>
    match assocGet RECORD_TYPES ts with
    | some c => decide (c < 65536) && decide (getType c = some ts)
    | none => false
  | none => false

/-- A response code whose encoding round-trips: absent (a query), or in the
    table with a code below 16 whose reverse lookup returns the same string. -/
def wfResp : Option PyStr → Bool
  | none => true
  | some rc =>
    match assocGet RESP_CODES rc with
    | some c => decide (c < 16) && decide (getResponseCode c = some rc)
    | none => false

/-- A question record that survives the wire: well-formed name and type (its
    value and ttl are not encoded at all). -/
def wfQuestion (r : Record) : Bool :=
  wfName r.name && wfType r.recordType

/-- A resource record that survives the wire: well-formed name and type, a
    positive ttl below 2^32, and a value in the canonical form of its type. -/
def wfAnswer (r : Record) : Bool :=
  wfName r.name && wfType r.recordType && decide (0 < r.ttl) &&
    decide (r.ttl < 4294967296) &&
    match r.value with
    | none => false
    | some v =>
      if r.recordType = some "A".toList then wfAValue v
      else if r.recordType = some "AAAA".toList then wfAAAAValue v
      else if r.recordType = some "CNAME".toList ∨
          r.recordType = some "NS".toList then
        wfName v &&
          match convertRecordName v with
          | some e => decide (e.length < 65536)
          | none => false
      else v.all (fun c => decide (c.toNat < 128)) && decide (v.length < 65536)

/-- A message whose encoding round-trips semantically. -/
def DNSMessage.wellFormed (m : DNSMessage) : Bool :=
  decide (m.id < 65536) && wfResp m.respCode &&
    decide (m.questions.length < 65536) && decide (m.answers.length < 65536) &&
    decide (m.authority.length < 65536) &&
    decide (m.additional.length < 65536) &&
    m.questions.all wfQuestion && m.answers.all wfAnswer &&
    m.authority.all wfAnswer && m.additional.all wfAnswer

theorem dropWhile_isPySpace {s : PyStr} (h : ∀ c ∈ s, isPySpace c = false) :
    s.dropWhile isPySpace = s := by
  cases s with
  | nil => rfl
  | cons c cs =>
    rw [List.dropWhile_cons, h c (List.mem_cons_self _ _)]
    simp

theorem pyStrip_eq_self {s : PyStr} (h : ∀ c ∈ s, isPySpace c = false) :
    pyStrip s = s := by
  rw [pyStrip, dropWhile_isPySpace h,
    dropWhile_isPySpace (fun c hc => h c (by simpa using hc)),
    List.reverse_reverse]

theorem splitCharAux_ne_nil (sep : Char) (acc : List Char) (s : List Char) :
    splitCharAux sep acc s ≠ [] := by
  induction s generalizing acc with
  | nil => simp [splitCharAux]
  | cons c rest ih =>
    rw [splitCharAux]
    by_cases hc : c = sep
    · rw [if_pos hc]
      simp
    · rw [if_neg hc]
      exact ih _

theorem joinChar_cons_cons (sep : Char) (p q : PyStr) (rest : List PyStr) :
    joinChar sep (p :: q :: rest) = p ++ sep :: joinChar sep (q :: rest) := rfl

theorem joinChar_splitCharAux (sep : Char) :
    ∀ (s : List Char) (acc : List Char),
      joinChar sep (splitCharAux sep acc s) = acc.reverse ++ s := by
  intro s
  induction s with
  | nil =>
    intro acc
    rw [splitCharAux, joinChar, List.append_nil]
  | cons c rest ih =>
    intro acc
    rw [splitCharAux]
    by_cases hc : c = sep
    · rw [if_pos hc]
      cases hps : splitCharAux sep [] rest with
      | nil => exact absurd hps (splitCharAux_ne_nil sep [] rest)
      | cons p ps =>
        rw [joinChar_cons_cons]
        have hj := ih []
        rw [hps] at hj
        rw [hj]
        subst hc
        rfl
    · rw [if_neg hc, ih (c :: acc)]
      simp

theorem joinChar_splitChar (sep : Char) (s : PyStr) :
    joinChar sep (splitChar sep s) = s :=
  joinChar_splitCharAux sep s []

theorem splitCharAux_no_sep (sep : Char) :
    ∀ (s : List Char) (acc : List Char), (∀ c ∈ acc, c ≠ sep) →
      ∀ p ∈ splitCharAux sep acc s, ∀ c ∈ p, c ≠ sep := by
  intro s
  induction s with
  | nil =>
    intro acc hacc p hp c hcp
    rw [splitCharAux] at hp
    rcases List.mem_singleton.mp hp with rfl
    exact hacc c (by simpa using hcp)
  | cons d rest ih =>
    intro acc hacc p hp c hcp
    rw [splitCharAux] at hp
    by_cases hd : d = sep
    · rw [if_pos hd] at hp
      rcases List.mem_cons.mp hp with rfl | hp2
      · exact hacc c (by simpa using hcp)
      · exact ih [] (fun x hx => absurd hx (List.not_mem_nil x)) p hp2 c hcp
    · rw [if_neg hd] at hp
      refine ih (d :: acc) ?_ p hp c hcp
      intro x hx
      rcases List.mem_cons.mp hx with rfl | hx2
      · exact hd
      · exact hacc x hx2

theorem splitChar_no_sep (sep : Char) (s : PyStr) :
    ∀ p ∈ splitChar sep s, ∀ c ∈ p, c ≠ sep :=
  splitCharAux_no_sep sep s [] (fun x hx => absurd hx (List.not_mem_nil x))

theorem mem_joinChar {sep : Char} :
    ∀ {ps : List PyStr} {c : Char}, c ∈ joinChar sep ps →
      c = sep ∨ ∃ p ∈ ps, c ∈ p := by
  intro ps
  induction ps with
  | nil =>
    intro c hc
    simp [joinChar] at hc
  | cons p rest ih =>
    intro c hc
    cases rest with
    | nil =>
      rw [joinChar] at hc
      exact Or.inr ⟨p, List.mem_cons_self _ _, hc⟩
    | cons q rest2 =>
      rw [joinChar_cons_cons] at hc
      rcases List.mem_append.mp hc with h1 | h2
      · exact Or.inr ⟨p, List.mem_cons_self _ _, h1⟩
      · rcases List.mem_cons.mp h2 with rfl | h3
        · exact Or.inl rfl
        · rcases ih h3 with h4 | ⟨q2, hq2, hcq2⟩
          · exact Or.inl h4
          · exact Or.inr ⟨q2, List.mem_cons_of_mem _ hq2, hcq2⟩

theorem filter_ne_joinChar (sep : Char) :
    ∀ (ps : List PyStr), (∀ p ∈ ps, ∀ c ∈ p, c ≠ sep) →
      (joinChar sep ps).filter (fun c => c ≠ sep) = ps.flatten := by
  intro ps
  induction ps with
  | nil => intro _; rfl
  | cons p rest ih =>
    intro h
    have hp : p.filter (fun c => c ≠ sep) = p :=
      List.filter_eq_self.mpr (fun c hc =>
        decide_eq_true (h p (List.mem_cons_self _ _) c hc))
    cases rest with
    | nil =>
      rw [joinChar]
      simpa using hp
    | cons q rest2 =>
      rw [joinChar_cons_cons, List.filter_append, hp, List.filter_cons]
      have : ¬ (sep ≠ sep) := fun hc => hc rfl
      rw [if_neg (by simpa using this)]
      rw [ih (fun x hx c hc => h x (List.mem_cons_of_mem _ hx) c hc)]
      rfl

/-- The dot-terminated text accumulated by the label-reading loop. -/
def withDots : List PyStr → PyStr
  | [] => []
  | l :: rest => l ++ '.' :: withDots rest

theorem land192_of_lt64 : ∀ n < 64, Nat.land n 192 = 0 := by decide

theorem nameAux_cons (fuel : Nat) (b : Nat) (rest : List Nat)
    (msg : Option (List Nat)) :
    nameAux (fuel + 1) (b :: rest) msg =
      if b = 0 then some (1, [])
      else if b.land 192 ≠ 0 then
        match msg with
        | none => some (2, [])
        | some m =>
          match unpackH ((b :: rest).take 2) with
          | none => none
          | some w =>
            match nameAux fuel (m.drop (w.land 16383)) (some m) with
            | none => none
            | some p => some (2, removeSuffixDot p.2 ++ ['.'])
      else
        match asciiDecode (rest.take b) with
        | none => none
        | some label =>
          match nameAux fuel (rest.drop b) msg with
          | none => none
          | some p => some (1 + b + p.1, label ++ '.' :: p.2) := rfl

theorem withDots_eq_joinChar :
    ∀ ls : List PyStr, ls ≠ [] → withDots ls = joinChar '.' ls ++ ['.'] := by
  intro ls
  induction ls with
  | nil => intro h; exact absurd rfl h
  | cons l rest ih =>
    intro _
    cases rest with
    | nil => rfl
    | cons q rest2 =>
      rw [withDots, ih (by simp), joinChar_cons_cons]
      simp

theorem nameAux_encode (msg : Option (List Nat)) :
    ∀ (ls : List PyStr), (∀ l ∈ ls, wfLabel l = true) →
      ∃ parts, ls.mapM encodeLabel = some parts ∧
        ls.length ≤ parts.flatten.length ∧
        ∀ (fuel : Nat) (rest : List Nat), ls.length + 1 ≤ fuel →
          nameAux fuel (parts.flatten ++ 0 :: rest) msg =
            some (parts.flatten.length + 1, withDots ls) := by
  intro ls
  induction ls with
  | nil =>
    intro _
    refine ⟨[], rfl, by simp, ?_⟩
    intro fuel rest hfuel
    match fuel, hfuel with
    | f + 1, _ =>
      show nameAux (f + 1) (List.flatten [] ++ 0 :: rest) msg = _
      rw [List.flatten_nil, List.nil_append, nameAux_cons, if_pos rfl]
      rfl
  | cons l rest ih =>
    intro hwf
    have hl := hwf l (List.mem_cons_self _ _)
    rw [wfLabel] at hl
    simp only [Bool.and_eq_true, List.all_eq_true, Bool.not_eq_true',
      decide_eq_true_eq] at hl
    obtain ⟨⟨hne, hlen⟩, hchars⟩ := hl
    have hnenil : l ≠ [] := by
      intro h
      subst h
      simp at hne
    have henc : encodeLabel l = some (l.length :: l.map Char.toNat) := by
      rw [encodeLabel, packB, if_pos (by omega), asciiEncode,
        if_pos (List.all_eq_true.mpr (fun c hc => by
          simpa using (hchars c hc).1.1))]
      rfl
    obtain ⟨parts, hparts, hplen, hrun⟩ :=
      ih (fun x hx => hwf x (List.mem_cons_of_mem _ hx))
    refine ⟨(l.length :: l.map Char.toNat) :: parts, ?_, ?_, ?_⟩
    · rw [List.mapM_cons, henc, hparts]
      rfl
    · simp only [List.flatten_cons, List.length_append, List.length_cons,
        List.length_map, List.length_cons]
      omega
    · intro fuel rest2 hfuel
      match fuel, hfuel with
      | f + 1, hfuel =>
        have hbytes :
            ((l.length :: l.map Char.toNat) :: parts).flatten ++ 0 :: rest2 =
              l.length :: (l.map Char.toNat ++ (parts.flatten ++ 0 :: rest2)) := by
          simp
        rw [hbytes, nameAux_cons]
        rw [if_neg (by
          intro h
          exact hnenil (List.length_eq_zero.mp h))]
        rw [if_neg (by
          intro h
          exact h (land192_of_lt64 l.length (by omega)))]
        have htake :
            (l.map Char.toNat ++ (parts.flatten ++ 0 :: rest2)).take l.length =
              l.map Char.toNat := by
          have := List.take_left (l.map Char.toNat) (parts.flatten ++ 0 :: rest2)
          simpa using this
        have hdec : asciiDecode (l.map Char.toNat) = some l := by
          rw [asciiDecode, if_pos (List.all_eq_true.mpr (fun b hb => by
            obtain ⟨c, hc, rfl⟩ := List.mem_map.mp hb
            simpa using (hchars c hc).1.1))]
          congr 1
          rw [List.map_map]
          exact List.map_congr_left (fun c _ => Char.ofNat_toNat c) |>.trans
            (List.map_id l)
        have hdrop :
            (l.map Char.toNat ++ (parts.flatten ++ 0 :: rest2)).drop l.length =
              parts.flatten ++ 0 :: rest2 := by
          have := List.drop_left (l.map Char.toNat) (parts.flatten ++ 0 :: rest2)
          simpa using this
        rw [htake, hdec, hdrop, hrun f rest2 (by
          have h2 : rest.length + 1 + 1 ≤ f + 1 := by simpa using hfuel
          omega)]
        simp only [List.flatten_cons, List.length_append, List.length_cons,
          List.length_map, withDots]
        have harith : 1 + List.length l + (parts.flatten.length + 1) =
            List.length l + 1 + parts.flatten.length + 1 := by omega
        rw [harith]

theorem convertRecordName_enc {s : PyStr} (hwf : wfName s = true) :
    ∃ enc, convertRecordName s = some enc ∧
      (splitChar '.' s).length + 1 ≤ enc.length ∧
      ∀ (fuel : Nat) (rest : List Nat) (msg : Option (List Nat)),
        enc.length ≤ fuel →
        nameFromRR fuel (enc ++ rest) msg = some (enc.length, s) := by
  rw [wfName, List.all_eq_true] at hwf
  obtain ⟨parts, hparts, hplen, hrun⟩ := nameAux_encode none (splitChar '.' s)
    (fun l hl => hwf l hl)
  refine ⟨parts.flatten ++ [0], ?_, ?_, ?_⟩
  · rw [convertRecordName, hparts]
    rfl
  · simp only [List.length_append, List.length_cons, List.length_nil]
    omega
  · intro fuel rest msg hfuel
    obtain ⟨parts0, hparts0, hplen0, hrun0⟩ := nameAux_encode msg (splitChar '.' s)
      (fun l hl => hwf l hl)
    rw [hparts] at hparts0
    have hpe : parts = parts0 := Option.some.inj hparts0
    subst hpe
    have hshape : (parts.flatten ++ [0]) ++ rest = parts.flatten ++ 0 :: rest := by
      simp
    rw [hshape, nameFromRR, hrun0 fuel rest (by
      simp only [List.length_append, List.length_cons, List.length_nil] at hfuel
      omega)]
    have hnn : splitChar '.' s ≠ [] := splitCharAux_ne_nil '.' [] s
    rw [Option.map_some']
    congr 1
    refine Prod.ext ?_ ?_
    · simp
    · show removeSuffixDot (withDots (splitChar '.' s)) = s
      rw [withDots_eq_joinChar _ hnn, removeSuffixDot_concat_dot,
        joinChar_splitChar]

theorem wfName_no_space {s : PyStr} (hwf : wfName s = true) :
    ∀ c ∈ s, isPySpace c = false := by
  intro c hc
  rw [wfName, List.all_eq_true] at hwf
  have hc2 : c ∈ joinChar '.' (splitChar '.' s) := by
    rw [joinChar_splitChar]
    exact hc
  rcases mem_joinChar hc2 with rfl | ⟨p, hp, hcp⟩
  · rfl
  · have := hwf p hp
    rw [wfLabel] at this
    simp only [Bool.and_eq_true, List.all_eq_true, Bool.not_eq_true',
      decide_eq_true_eq] at this
    exact (this.2 c hcp).1.2

theorem wfName_ascii {s : PyStr} (hwf : wfName s = true) :
    ∀ c ∈ s, c.toNat < 128 := by
  intro c hc
  rw [wfName, List.all_eq_true] at hwf
  have hc2 : c ∈ joinChar '.' (splitChar '.' s) := by
    rw [joinChar_splitChar]
    exact hc
  rcases mem_joinChar hc2 with rfl | ⟨p, hp, hcp⟩
  · decide
  · have := hwf p hp
    rw [wfLabel] at this
    simp only [Bool.and_eq_true, List.all_eq_true, Bool.not_eq_true',
      decide_eq_true_eq] at this
    exact (this.2 c hcp).1.1

theorem exists_four {α : Type} : ∀ {l : List α}, l.length = 4 →
    ∃ a b c d, l = [a, b, c, d]
  | [a, b, c, d], _ => ⟨a, b, c, d, rfl⟩
  | [], h => by simp at h
  | [_], h => by simp at h
  | [_, _], h => by simp at h
  | [_, _, _], h => by simp at h
  | _ :: _ :: _ :: _ :: _ :: _, h => by
    simp only [List.length_cons] at h
    omega

theorem exists_eight {α : Type} : ∀ {l : List α}, l.length = 8 →
    ∃ a b c d e f g h, l = [a, b, c, d, e, f, g, h]
  | [a, b, c, d, e, f, g, h], _ => ⟨a, b, c, d, e, f, g, h, rfl⟩
  | [], h => by simp at h
  | [_], h => by simp at h
  | [_, _], h => by simp at h
  | [_, _, _], h => by simp at h
  | [_, _, _, _], h => by simp at h
  | [_, _, _, _, _], h => by simp at h
  | [_, _, _, _, _, _], h => by simp at h
  | [_, _, _, _, _, _, _], h => by simp at h
  | _ :: _ :: _ :: _ :: _ :: _ :: _ :: _ :: _ :: _, h => by
    simp only [List.length_cons] at h
    omega

theorem canonNum_spec {p : PyStr} (h : canonNum p = true) :
    ∃ k, pyIntOpt p = some k ∧ k < 256 ∧ p = ntoa k := by
  rw [canonNum] at h
  split at h
  next k hk =>
    simp only [Bool.and_eq_true, decide_eq_true_eq] at h
    exact ⟨k, hk, h.1, h.2⟩
  next => exact absurd h (by simp)

theorem wfA_roundtrip {v : PyStr} (h : wfAValue v = true) :
    ∃ bs, ((splitChar '.' v).mapM pyIntOpt).bind
        (fun xs => if xs.all (fun x => x < 256) then some xs else none) =
          some bs ∧
      bs.length = 4 ∧
      ∀ tail, (unpackBBBB ((bs ++ tail).take 4)).map
          (fun xs => joinChar '.' (xs.map ntoa)) = some v := by
  rw [wfAValue] at h
  simp only [Bool.and_eq_true, decide_eq_true_eq, List.all_eq_true] at h
  obtain ⟨hlen, hall⟩ := h
  obtain ⟨p1, p2, p3, p4, hsp⟩ := exists_four hlen
  rw [hsp] at hall
  obtain ⟨k1, hpk1, hlt1, hct1⟩ := canonNum_spec (hall p1 (by simp))
  obtain ⟨k2, hpk2, hlt2, hct2⟩ := canonNum_spec (hall p2 (by simp))
  obtain ⟨k3, hpk3, hlt3, hct3⟩ := canonNum_spec (hall p3 (by simp))
  obtain ⟨k4, hpk4, hlt4, hct4⟩ := canonNum_spec (hall p4 (by simp))
  refine ⟨[k1, k2, k3, k4], ?_, rfl, ?_⟩
  · rw [hsp]
    have hm : [p1, p2, p3, p4].mapM pyIntOpt = some [k1, k2, k3, k4] := by
      rw [List.mapM_cons, hpk1, List.mapM_cons, hpk2, List.mapM_cons, hpk3,
        List.mapM_cons, hpk4, List.mapM_nil]
      rfl
    rw [hm]
    show (if [k1, k2, k3, k4].all (fun x => decide (x < 256)) = true
        then some [k1, k2, k3, k4] else none) = some [k1, k2, k3, k4]
    rw [if_pos (by simp [hlt1, hlt2, hlt3, hlt4])]
  · intro tail
    have htake : ([k1, k2, k3, k4] ++ tail).take 4 = [k1, k2, k3, k4] := by
      simp [List.take]
    rw [htake]
    show some (joinChar '.' ([k1, k2, k3, k4].map ntoa)) = some v
    rw [List.map_cons, List.map_cons, List.map_cons, List.map_cons,
      List.map_nil, ← hct1, ← hct2, ← hct3, ← hct4, ← hsp, joinChar_splitChar]

theorem hexVal_hexChar : ∀ d < 16, hexVal (hexChar d) = some d := by decide

theorem hexChar_ne_colon : ∀ d < 16, hexChar d ≠ ':' := by decide

theorem toHex4_ne_colon (k : Nat) : ∀ c ∈ toHex4 k, c ≠ ':' := by
  intro c hc
  rw [toHex4] at hc
  simp only [List.mem_cons, List.not_mem_nil, or_false] at hc
  rcases hc with rfl | rfl | rfl | rfl
  · exact hexChar_ne_colon _ (Nat.mod_lt _ (by norm_num))
  · exact hexChar_ne_colon _ (Nat.mod_lt _ (by norm_num))
  · exact hexChar_ne_colon _ (Nat.mod_lt _ (by norm_num))
  · exact hexChar_ne_colon _ (Nat.mod_lt _ (by norm_num))

theorem hex4Parse_toHex4 (k : Nat) :
    hex4Parse (toHex4 k) =
      some (((k / 4096 % 16 * 16 + k / 256 % 16) * 16 + k / 16 % 16) * 16 +
        k % 16) := by
  rw [toHex4, hex4Parse, hexVal_hexChar _ (Nat.mod_lt _ (by norm_num)),
    hexVal_hexChar _ (Nat.mod_lt _ (by norm_num)),
    hexVal_hexChar _ (Nat.mod_lt _ (by norm_num)),
    hexVal_hexChar _ (Nat.mod_lt _ (by norm_num))]

theorem canonHex4_spec {g : PyStr} (h : canonHex4 g = true) :
    ∃ k, k < 65536 ∧ g = toHex4 k := by
  rw [canonHex4] at h
  split at h
  next k hk =>
    simp only [decide_eq_true_eq] at h
    refine ⟨k, ?_, h⟩
    rw [h, hex4Parse_toHex4] at hk
    have := Option.some.inj hk
    omega
  next => exact absurd h (by simp)

theorem hexPairs_toHex4 {k : Nat} (hk : k < 65536) (rest : PyStr) :
    hexPairs (toHex4 k ++ rest) =
      (hexPairs rest).map (fun tl => k / 256 :: k % 256 :: tl) := by
  have e1 := hexVal_hexChar (k / 4096 % 16) (Nat.mod_lt _ (by norm_num))
  have e2 := hexVal_hexChar (k / 256 % 16) (Nat.mod_lt _ (by norm_num))
  have e3 := hexVal_hexChar (k / 16 % 16) (Nat.mod_lt _ (by norm_num))
  have e4 := hexVal_hexChar (k % 16) (Nat.mod_lt _ (by norm_num))
  have hb1 : k / 4096 % 16 * 16 + k / 256 % 16 = k / 256 := by omega
  have hb2 : k / 16 % 16 * 16 + k % 16 = k % 256 := by omega
  show hexPairs (hexChar (k / 4096 % 16) :: hexChar (k / 256 % 16) ::
      (hexChar (k / 16 % 16) :: hexChar (k % 16) :: rest)) = _
  rw [hexPairs, e1, e2, hexPairs, e3, e4]
  cases hpr : hexPairs rest with
  | none => rfl
  | some tl =>
    show some ((k / 4096 % 16 * 16 + k / 256 % 16) ::
        (k / 16 % 16 * 16 + k % 16) :: tl) = _
    rw [hb1, hb2]
    rfl

theorem wfAAAA_roundtrip {v : PyStr} (h : wfAAAAValue v = true) :
    ∃ bs, hexPairs (v.filter (fun c => c ≠ ':')) = some bs ∧ bs.length = 16 ∧
      ∀ tail, (unpackH8 ((bs ++ tail).take 16)).map
          (fun xs => joinChar ':' (xs.map toHex4)) = some v := by
  rw [wfAAAAValue] at h
  simp only [Bool.and_eq_true, decide_eq_true_eq, List.all_eq_true] at h
  obtain ⟨hlen, hall⟩ := h
  obtain ⟨g1, g2, g3, g4, g5, g6, g7, g8, hsp⟩ := exists_eight hlen
  rw [hsp] at hall
  obtain ⟨k1, hk1, hg1⟩ := canonHex4_spec (hall g1 (by simp))
  obtain ⟨k2, hk2, hg2⟩ := canonHex4_spec (hall g2 (by simp))
  obtain ⟨k3, hk3, hg3⟩ := canonHex4_spec (hall g3 (by simp))
  obtain ⟨k4, hk4, hg4⟩ := canonHex4_spec (hall g4 (by simp))
  obtain ⟨k5, hk5, hg5⟩ := canonHex4_spec (hall g5 (by simp))
  obtain ⟨k6, hk6, hg6⟩ := canonHex4_spec (hall g6 (by simp))
  obtain ⟨k7, hk7, hg7⟩ := canonHex4_spec (hall g7 (by simp))
  obtain ⟨k8, hk8, hg8⟩ := canonHex4_spec (hall g8 (by simp))
  have hv : joinChar ':' [g1, g2, g3, g4, g5, g6, g7, g8] = v := by
    rw [← hsp, joinChar_splitChar]
  have hnosep : ∀ g ∈ [g1, g2, g3, g4, g5, g6, g7, g8], ∀ c ∈ g, c ≠ ':' := by
    intro g hg c hc
    simp only [List.mem_cons, List.not_mem_nil, or_false] at hg
    rcases hg with rfl | rfl | rfl | rfl | rfl | rfl | rfl | rfl
    · rw [hg1] at hc; exact toHex4_ne_colon k1 c hc
    · rw [hg2] at hc; exact toHex4_ne_colon k2 c hc
    · rw [hg3] at hc; exact toHex4_ne_colon k3 c hc
    · rw [hg4] at hc; exact toHex4_ne_colon k4 c hc
    · rw [hg5] at hc; exact toHex4_ne_colon k5 c hc
    · rw [hg6] at hc; exact toHex4_ne_colon k6 c hc
    · rw [hg7] at hc; exact toHex4_ne_colon k7 c hc
    · rw [hg8] at hc; exact toHex4_ne_colon k8 c hc
  have hfil : v.filter (fun c => c ≠ ':') =
      [g1, g2, g3, g4, g5, g6, g7, g8].flatten := by
    rw [← hv]
    exact filter_ne_joinChar ':' _ hnosep
  refine ⟨[k1 / 256, k1 % 256, k2 / 256, k2 % 256, k3 / 256, k3 % 256,
    k4 / 256, k4 % 256, k5 / 256, k5 % 256, k6 / 256, k6 % 256,
    k7 / 256, k7 % 256, k8 / 256, k8 % 256], ?_, rfl, ?_⟩
  · rw [hfil]
    simp only [List.flatten_cons, List.flatten_nil]
    rw [hg1, hg2, hg3, hg4, hg5, hg6, hg7, hg8, hexPairs_toHex4 hk1,
      hexPairs_toHex4 hk2, hexPairs_toHex4 hk3, hexPairs_toHex4 hk4,
      hexPairs_toHex4 hk5, hexPairs_toHex4 hk6, hexPairs_toHex4 hk7,
      hexPairs_toHex4 hk8]
    rfl
  · intro tail
    have htake : ([k1 / 256, k1 % 256, k2 / 256, k2 % 256, k3 / 256, k3 % 256,
        k4 / 256, k4 % 256, k5 / 256, k5 % 256, k6 / 256, k6 % 256,
        k7 / 256, k7 % 256, k8 / 256, k8 % 256] ++ tail).take 16 =
        [k1 / 256, k1 % 256, k2 / 256, k2 % 256, k3 / 256, k3 % 256,
        k4 / 256, k4 % 256, k5 / 256, k5 % 256, k6 / 256, k6 % 256,
        k7 / 256, k7 % 256, k8 / 256, k8 % 256] := by
      have := List.take_left [k1 / 256, k1 % 256, k2 / 256, k2 % 256,
        k3 / 256, k3 % 256, k4 / 256, k4 % 256, k5 / 256, k5 % 256,
        k6 / 256, k6 % 256, k7 / 256, k7 % 256, k8 / 256, k8 % 256] tail
      simpa using this
    rw [htake]
    show some (joinChar ':' ([k1 / 256 * 256 + k1 % 256,
      k2 / 256 * 256 + k2 % 256, k3 / 256 * 256 + k3 % 256,
      k4 / 256 * 256 + k4 % 256, k5 / 256 * 256 + k5 % 256,
      k6 / 256 * 256 + k6 % 256, k7 / 256 * 256 + k7 % 256,
      k8 / 256 * 256 + k8 % 256].map toHex4)) = some v
    have hrec : ∀ k : Nat, k / 256 * 256 + k % 256 = k := fun k => by omega
    rw [hrec k1, hrec k2, hrec k3, hrec k4, hrec k5, hrec k6, hrec k7, hrec k8]
    simp only [List.map_cons, List.map_nil]
    rw [← hg1, ← hg2, ← hg3, ← hg4, ← hg5, ← hg6, ← hg7, ← hg8, hv]

theorem wfType_spec {t : Option PyStr} (h : wfType t = true) :
    ∃ ts c, t = some ts ∧ assocGet RECORD_TYPES ts = some c ∧ c < 65536 ∧
      getType c = some ts := by
  cases t with
  | none => exact absurd h (by simp [wfType])
  | some ts =>
    rw [wfType] at h
    split at h
    next c hc =>
      simp only [Bool.and_eq_true, decide_eq_true_eq] at h
      exact ⟨ts, c, rfl, hc, h.1, h.2⟩
    next => exact absurd h (by simp)

theorem wfResp_spec {t : Option PyStr} (h : wfResp t = true) :
    t = none ∨ ∃ rc c, t = some rc ∧ assocGet RESP_CODES rc = some c ∧
      c < 16 ∧ getResponseCode c = some rc := by
  cases t with
  | none => exact Or.inl rfl
  | some rc =>
    rw [wfResp] at h
    split at h
    next c hc =>
      simp only [Bool.and_eq_true, decide_eq_true_eq] at h
      exact Or.inr ⟨rc, c, rfl, hc, h.1, h.2⟩
    next => exact absurd h (by simp)

theorem asciiDecode_encode {v : PyStr} (h : ∀ c ∈ v, c.toNat < 128) :
    asciiDecode (v.map Char.toNat) = some v := by
  rw [asciiDecode, if_pos (List.all_eq_true.mpr (fun b hb => by
    obtain ⟨c, hc, rfl⟩ := List.mem_map.mp hb
    simpa using h c hc))]
  congr 1
  rw [List.map_map]
  exact List.map_congr_left (fun c _ => Char.ofNat_toNat c) |>.trans
    (List.map_id v)

theorem drop_append_add {α : Type} (l1 l2 : List α) (k : Nat) :
    (l1 ++ l2).drop (l1.length + k) = l2.drop k := by
  rw [← List.drop_drop, List.drop_left]

theorem answerValue_drop_eq {fuel : Nat} {rt : Option PyStr}
    {a1 a2 : List Nat} {s1 s2 len : Nat} {msg : Option (List Nat)}
    (h : a1.drop s1 = a2.drop s2) :
    answerValue fuel rt a1 s1 len msg = answerValue fuel rt a2 s2 len msg := by
  rw [answerValue, answerValue, h]

theorem fromQuestion_enc {r : Record} (hwf : wfQuestion r = true) :
    ∃ enc, r.question = some enc ∧ 0 < enc.length ∧
      ∀ (now' : Int) (fuel : Nat) (rest : List Nat),
        enc.length ≤ fuel →
        fromQuestion now' fuel (enc ++ rest) =
          some (enc.length, ⟨r.recordType, r.name, none, -1, now'⟩) := by
  rw [wfQuestion, Bool.and_eq_true] at hwf
  obtain ⟨hwn, hwt⟩ := hwf
  obtain ⟨ts, c, hts, hget, hclt, hback⟩ := wfType_spec hwt
  obtain ⟨nf, hnf, hnflen, hparse⟩ := convertRecordName_enc hwn
  have htf : r.typeField = some [c / 256, c % 256] := by
    rw [Record.typeField, hts]
    simp only [hget]
    rw [packH, if_pos hclt]
  have hq : r.question = some (nf ++ [c / 256, c % 256, 0, 1]) := by
    rw [Record.question, Record.nameField, hnf, htf]
    show some (nf ++ [c / 256, c % 256] ++ Record.classField) = _
    rw [Record.classField]
    simp
  refine ⟨nf ++ [c / 256, c % 256, 0, 1], hq, by simp, ?_⟩
  intro now' fuel rest hfuel
  have hlen : (nf ++ [c / 256, c % 256, 0, 1]).length = nf.length + 4 := by
    simp
  have hshape : (nf ++ [c / 256, c % 256, 0, 1]) ++ rest =
      nf ++ (c / 256 :: c % 256 :: 0 :: 1 :: rest) := by simp
  have hname : nameFromRR fuel (nf ++ (c / 256 :: c % 256 :: 0 :: 1 :: rest))
      none = some (nf.length, r.name) :=
    hparse fuel _ none (by rw [hlen] at hfuel; omega)
  rw [fromQuestion, hshape]
  simp only [hname]
  have hdrop : (nf ++ (c / 256 :: c % 256 :: 0 :: 1 :: rest)).drop nf.length =
      c / 256 :: c % 256 :: 0 :: 1 :: rest := List.drop_left _ _
  have h1 : unpackH (((nf ++ (c / 256 :: c % 256 :: 0 :: 1 :: rest)).drop
      nf.length).take 2) = some c := by
    rw [hdrop]
    show some (c / 256 * 256 + c % 256) = some c
    congr 1
    omega
  simp only [h1]
  rw [hback, ← hts]
  have hmk : Record.make now' r.recordType r.name none (-1) =
      ⟨r.recordType, r.name, none, -1, now'⟩ := by
    rw [Record.make, pyStrip_eq_self (wfName_no_space hwn)]
  rw [hmk, hlen]

theorem fromAnswer_enc {r : Record} (hwf : wfAnswer r = true) :
    ∃ enc, r.answer = some enc ∧ 0 < enc.length ∧
      ∀ (now' : Int) (fuel : Nat) (rest : List Nat) (msg : Option (List Nat)),
        enc.length ≤ fuel →
        fromAnswer now' fuel (enc ++ rest) msg =
          some (enc.length, ⟨r.recordType, r.name, r.value, r.ttl, now'⟩) := by
  rw [wfAnswer] at hwf
  simp only [Bool.and_eq_true, decide_eq_true_eq] at hwf
  obtain ⟨⟨⟨⟨hwn, hwt⟩, httl0⟩, httl32⟩, hval⟩ := hwf
  obtain ⟨ts, c, hts, hget, hclt, hback⟩ := wfType_spec hwt
  obtain ⟨nf, hnf, hnflen, hparse⟩ := convertRecordName_enc hwn
  have htf : r.typeField = some [c / 256, c % 256] := by
    rw [Record.typeField, hts]
    simp only [hget]
    rw [packH, if_pos hclt]
  have hn32 : r.ttl.toNat < 4294967296 := by omega
  have httlf : r.ttlField = some [r.ttl.toNat / 16777216,
      r.ttl.toNat / 65536 % 256, r.ttl.toNat / 256 % 256,
      r.ttl.toNat % 256] := by
    rw [Record.ttlField, if_pos httl0, packL, if_pos hn32]
  have hunpttl : ∀ (l : List Nat),
      unpackL (([r.ttl.toNat / 16777216, r.ttl.toNat / 65536 % 256,
        r.ttl.toNat / 256 % 256, r.ttl.toNat % 256] ++ l).take 4) =
        some r.ttl.toNat := by
    intro l
    show some (((r.ttl.toNat / 16777216 * 256 + r.ttl.toNat / 65536 % 256) * 256
        + r.ttl.toNat / 256 % 256) * 256 + r.ttl.toNat % 256) =
      some r.ttl.toNat
    congr 1
    omega
  cases hv : r.value with
  | none =>
    simp only [hv] at hval
    exact absurd hval (by simp)
  | some v =>
    simp only [hv] at hval
    have hmain : ∃ data, Record.rdata r = some data ∧ data.length < 65536 ∧
        ∀ (fuel' : Nat) (tail : List Nat) (msg : Option (List Nat)),
          data.length ≤ fuel' →
          answerValue fuel' r.recordType (data ++ tail) 0 data.length msg =
            some v := by
      by_cases hA : r.recordType = some "A".toList
      · rw [if_pos hA] at hval
        obtain ⟨bs, hbs, hbs4, hbdec⟩ := wfA_roundtrip hval
        refine ⟨bs, ?_, by omega, ?_⟩
        · rw [Record.rdata, if_pos hA]
          simp only [hv]
          exact hbs
        · intro fuel' tail msg hf
          rw [answerValue, if_pos hA, List.drop_zero]
          exact hbdec tail
      · rw [if_neg hA] at hval
        by_cases hAA : r.recordType = some "AAAA".toList
        · rw [if_pos hAA] at hval
          obtain ⟨bs, hbs, hbs16, hbdec⟩ := wfAAAA_roundtrip hval
          refine ⟨bs, ?_, by omega, ?_⟩
          · rw [Record.rdata, if_neg hA, if_pos hAA]
            simp only [hv]
            exact hbs
          · intro fuel' tail msg hf
            rw [answerValue, if_neg hA, if_pos hAA, List.drop_zero]
            exact hbdec tail
        · rw [if_neg hAA] at hval
          by_cases hCN : r.recordType = some "CNAME".toList ∨
              r.recordType = some "NS".toList
          · rw [if_pos hCN] at hval
            rw [Bool.and_eq_true] at hval
            obtain ⟨hwnv, hlenv⟩ := hval
            obtain ⟨venc, hvenc, hvlen, hvparse⟩ := convertRecordName_enc hwnv
            simp only [hvenc, decide_eq_true_eq] at hlenv
            refine ⟨venc, ?_, hlenv, ?_⟩
            · rw [Record.rdata, if_neg hA, if_neg hAA, if_pos hCN]
              simp only [hv]
              exact hvenc
            · intro fuel' tail msg hf
              rw [answerValue, if_neg hA, if_neg hAA, if_pos hCN,
                List.drop_zero, List.take_left]
              have := hvparse fuel' [] msg hf
              rw [List.append_nil] at this
              rw [this]
              rfl
          · rw [if_neg hCN] at hval
            rw [Bool.and_eq_true] at hval
            obtain ⟨hascii, hvl⟩ := hval
            have hP : ∀ ch ∈ v, ch.toNat < 128 := fun ch hc => by
              have := List.all_eq_true.mp hascii ch hc
              simpa using this
            refine ⟨v.map Char.toNat, ?_, ?_, ?_⟩
            · rw [Record.rdata, if_neg hA, if_neg hAA, if_neg hCN]
              simp only [hv]
              rw [asciiEncode, if_pos hascii]
            · simp only [List.length_map]
              simpa using hvl
            · intro fuel' tail msg hf
              rw [answerValue, if_neg hA, if_neg hAA, if_neg hCN,
                List.drop_zero, List.take_left]
              exact asciiDecode_encode hP
    obtain ⟨data, hrd, hdl, hav⟩ := hmain
    have hans : r.answer = some (nf ++ (c / 256 :: c % 256 :: 0 :: 1 ::
        r.ttl.toNat / 16777216 :: r.ttl.toNat / 65536 % 256 ::
        r.ttl.toNat / 256 % 256 :: r.ttl.toNat % 256 ::
        data.length / 256 :: data.length % 256 :: data)) := by
      rw [Record.answer, Record.nameField]
      simp only [hnf, htf, httlf, hrd]
      rw [packH, if_pos hdl]
      show some (nf ++ [c / 256, c % 256] ++ Record.classField ++
        [r.ttl.toNat / 16777216, r.ttl.toNat / 65536 % 256,
         r.ttl.toNat / 256 % 256, r.ttl.toNat % 256] ++
        [data.length / 256, data.length % 256] ++ data) = _
      rw [Record.classField]
      simp
    have henclen : (nf ++ (c / 256 :: c % 256 :: 0 :: 1 ::
        r.ttl.toNat / 16777216 :: r.ttl.toNat / 65536 % 256 ::
        r.ttl.toNat / 256 % 256 :: r.ttl.toNat % 256 ::
        data.length / 256 :: data.length % 256 :: data)).length =
        nf.length + 10 + data.length := by
      simp only [List.length_append, List.length_cons]
      omega
    refine ⟨_, hans, by simp, ?_⟩
    intro now' fuel rest msg hfuel
    rw [henclen] at hfuel
    have hshape : (nf ++ (c / 256 :: c % 256 :: 0 :: 1 ::
        r.ttl.toNat / 16777216 :: r.ttl.toNat / 65536 % 256 ::
        r.ttl.toNat / 256 % 256 :: r.ttl.toNat % 256 ::
        data.length / 256 :: data.length % 256 :: data)) ++ rest =
        nf ++ (c / 256 :: c % 256 :: 0 :: 1 ::
        r.ttl.toNat / 16777216 :: r.ttl.toNat / 65536 % 256 ::
        r.ttl.toNat / 256 % 256 :: r.ttl.toNat % 256 ::
        data.length / 256 :: data.length % 256 :: (data ++ rest)) := by
      simp
    have hname := hparse fuel (c / 256 :: c % 256 :: 0 :: 1 ::
        r.ttl.toNat / 16777216 :: r.ttl.toNat / 65536 % 256 ::
        r.ttl.toNat / 256 % 256 :: r.ttl.toNat % 256 ::
        data.length / 256 :: data.length % 256 :: (data ++ rest)) msg
      (by omega)
    rw [fromAnswer, hshape]
    simp only [hname]
    have h1 : unpackH (((nf ++ (c / 256 :: c % 256 :: 0 :: 1 ::
        r.ttl.toNat / 16777216 :: r.ttl.toNat / 65536 % 256 ::
        r.ttl.toNat / 256 % 256 :: r.ttl.toNat % 256 ::
        data.length / 256 :: data.length % 256 :: (data ++ rest))).drop
          nf.length).take 2) = some c := by
      rw [List.drop_left]
      show some (c / 256 * 256 + c % 256) = some c
      congr 1
      omega
    simp only [h1]
    have h2 : unpackL (((nf ++ (c / 256 :: c % 256 :: 0 :: 1 ::
        r.ttl.toNat / 16777216 :: r.ttl.toNat / 65536 % 256 ::
        r.ttl.toNat / 256 % 256 :: r.ttl.toNat % 256 ::
        data.length / 256 :: data.length % 256 :: (data ++ rest))).drop
          (nf.length + 4)).take 4) = some r.ttl.toNat := by
      rw [drop_append_add]
      exact hunpttl (data.length / 256 :: data.length % 256 :: (data ++ rest))
    simp only [h2]
    have h3 : unpackH (((nf ++ (c / 256 :: c % 256 :: 0 :: 1 ::
        r.ttl.toNat / 16777216 :: r.ttl.toNat / 65536 % 256 ::
        r.ttl.toNat / 256 % 256 :: r.ttl.toNat % 256 ::
        data.length / 256 :: data.length % 256 :: (data ++ rest))).drop
          (nf.length + 8)).take 2) = some data.length := by
      rw [drop_append_add]
      show some (data.length / 256 * 256 + data.length % 256) = some data.length
      congr 1
      omega
    simp only [h3]
    have hdrop10 : (nf ++ (c / 256 :: c % 256 :: 0 :: 1 ::
        r.ttl.toNat / 16777216 :: r.ttl.toNat / 65536 % 256 ::
        r.ttl.toNat / 256 % 256 :: r.ttl.toNat % 256 ::
        data.length / 256 :: data.length % 256 :: (data ++ rest))).drop
          (nf.length + 10) = (data ++ rest).drop 0 := by
      rw [drop_append_add, List.drop_zero]
      rfl
    have h4 : answerValue fuel (getType c) (nf ++ (c / 256 :: c % 256 :: 0 :: 1 ::
        r.ttl.toNat / 16777216 :: r.ttl.toNat / 65536 % 256 ::
        r.ttl.toNat / 256 % 256 :: r.ttl.toNat % 256 ::
        data.length / 256 :: data.length % 256 :: (data ++ rest)))
        (nf.length + 10) data.length msg = some v := by
      rw [hback, ← hts, answerValue_drop_eq hdrop10]
      exact hav fuel rest msg (by omega)
    simp only [h4]
    have hofn : Int.ofNat r.ttl.toNat = r.ttl := by
      show (r.ttl.toNat : Int) = r.ttl
      omega
    have hmk : Record.make now' (getType c) r.name (some v)
        (Int.ofNat r.ttl.toNat) = ⟨r.recordType, r.name, some v, r.ttl, now'⟩ := by
      rw [Record.make, hofn, pyStrip_eq_self (wfName_no_space hwn), hback,
        ← hts]
    rw [hmk, henclen]

/-- The flag word built by `DNSMessage.payload`, with the response code (when
    present) already looked up. -/
def flagsWord (respC : Option Nat) (rd ra : Bool) : Nat :=
  let f1 : Nat := if ra then Nat.lor 0 128 else 0
  let f2 : Nat := if rd then f1.lor 256 else f1
  match respC with
  | none => f2
  | some c => f2.lor (c.lor 32768)

theorem flagsWord_none_spec : ∀ (rd ra : Bool),
    flagsWord none rd ra < 65536 ∧
    ((flagsWord none rd ra).land 32768 != 0) = false ∧
    ((flagsWord none rd ra).land 256 != 0) = rd ∧
    ((flagsWord none rd ra).land 128 != 0) = ra := by decide

theorem flagsWord_some_spec : ∀ c < 16, ∀ (rd ra : Bool),
    flagsWord (some c) rd ra < 65536 ∧
    ((flagsWord (some c) rd ra).land 32768 != 0) = true ∧
    ((flagsWord (some c) rd ra).land 256 != 0) = rd ∧
    ((flagsWord (some c) rd ra).land 128 != 0) = ra ∧
    (flagsWord (some c) rd ra).land 15 = c := by decide

theorem encodeQuestions_enc {qs : List Record}
    (hwf : ∀ q ∈ qs, wfQuestion q = true) :
    ∃ enc, encodeQuestions qs = some enc ∧
      ∀ (now' : Int) (fuel : Nat) (rest : List Nat),
        enc.length ≤ fuel →
        decodeQuestions now' fuel (enc ++ rest) qs.length =
          some (enc.length,
            qs.map (fun q => ⟨q.recordType, q.name, none, -1, now'⟩)) := by
  induction qs with
  | nil => exact ⟨[], rfl, fun now' fuel rest _ => rfl⟩
  | cons q qs ih =>
    obtain ⟨e1, he1, he1pos, hq⟩ := fromQuestion_enc (hwf q (List.mem_cons_self _ _))
    obtain ⟨etl, hetl, htl⟩ := ih (fun x hx => hwf x (List.mem_cons_of_mem _ hx))
    refine ⟨e1 ++ etl, ?_, ?_⟩
    · rw [encodeQuestions]
      simp only [he1, hetl]
    · intro now' fuel rest hfuel
      rw [List.length_append] at hfuel
      rw [List.append_assoc]
      show decodeQuestions now' fuel (e1 ++ (etl ++ rest)) (qs.length + 1) = _
      rw [decodeQuestions]
      have hq' := hq now' fuel (etl ++ rest) (by omega)
      simp only [hq']
      rw [List.drop_left]
      have htl' := htl now' fuel rest (by omega)
      simp only [htl']
      rw [List.length_append, List.map_cons]

theorem encodeResponses_enc {rs : List Record}
    (hwf : ∀ x ∈ rs, wfAnswer x = true) :
    ∃ enc, encodeResponses rs = some enc ∧
      ∀ (now' : Int) (fuel : Nat) (rest : List Nat) (msg : Option (List Nat)),
        enc.length ≤ fuel →
        decodeResponses now' fuel (enc ++ rest) msg rs.length =
          some (enc.length,
            rs.map (fun x => ⟨x.recordType, x.name, x.value, x.ttl, now'⟩)) := by
  induction rs with
  | nil => exact ⟨[], rfl, fun now' fuel rest msg _ => rfl⟩
  | cons x rs ih =>
    obtain ⟨e1, he1, he1pos, hx⟩ := fromAnswer_enc (hwf x (List.mem_cons_self _ _))
    obtain ⟨etl, hetl, htl⟩ := ih (fun y hy => hwf y (List.mem_cons_of_mem _ hy))
    refine ⟨e1 ++ etl, ?_, ?_⟩
    · rw [encodeResponses]
      simp only [he1, hetl]
    · intro now' fuel rest msg hfuel
      rw [List.length_append] at hfuel
      rw [List.append_assoc]
      show decodeResponses now' fuel (e1 ++ (etl ++ rest)) msg (rs.length + 1) = _
      rw [decodeResponses]
      have hx' := hx now' fuel (etl ++ rest) msg (by omega)
      simp only [hx']
      rw [List.drop_left]
      have htl' := htl now' fuel rest msg (by omega)
      simp only [htl']
      rw [List.length_append, List.map_cons]

/-- C2 (amended): for every well-formed message — names made of nonempty
    ASCII labels of at most 63 characters without whitespace or dots, types and
    response code canonical table entries, ttls in `[1, 2^32)`, values in the
    canonical text form of their type, and section counts and RDATA lengths
    below 2^16 — `payload` succeeds and `fromMessage` on the produced bytes
    returns a message with the same id, flags (QR, RD, RA and response code)
    and the same question, answer, authority and additional sequences, each
    record keeping its name, type, value and ttl (only `queriedAt` is
    re-stamped, and a question's never-encoded value and ttl read back as
    `none` and `-1`). -/
theorem claim_C2_amended {m : DNSMessage} (hwf : m.wellFormed = true) :
    ∃ bs, m.payload = some bs ∧
      ∀ (now' : Int) (fuel : Nat), bs.length ≤ fuel →
        DNSMessage.fromMessage now' fuel bs =
          some ⟨m.id, m.respCode, m.recurseDesired, m.recurseAvailable,
            m.questions.map (fun q => ⟨q.recordType, q.name, none, -1, now'⟩),
            m.answers.map (fun x => ⟨x.recordType, x.name, x.value, x.ttl, now'⟩),
            m.authority.map (fun x => ⟨x.recordType, x.name, x.value, x.ttl, now'⟩),
            m.additional.map
              (fun x => ⟨x.recordType, x.name, x.value, x.ttl, now'⟩)⟩ := by
  rw [DNSMessage.wellFormed] at hwf
  simp only [Bool.and_eq_true, decide_eq_true_eq, List.all_eq_true] at hwf
  obtain ⟨⟨⟨⟨⟨⟨⟨⟨⟨hid, hresp⟩, hqc⟩, hac⟩, huc⟩, hdc⟩, hq⟩, ha⟩, hu⟩, hd⟩ := hwf
  obtain ⟨qenc, hqenc, hqdec⟩ := encodeQuestions_enc hq
  obtain ⟨aenc, haenc, hadec⟩ := encodeResponses_enc ha
  obtain ⟨uenc, huenc, hudec⟩ := encodeResponses_enc hu
  obtain ⟨denc, hdenc, hddec⟩ := encodeResponses_enc hd
  have hflags : ∃ F : Nat,
      buildFlags m.respCode m.recurseDesired m.recurseAvailable = some F ∧
      F < 65536 ∧
      ((F.land 256 != 0) = m.recurseDesired) ∧
      ((F.land 128 != 0) = m.recurseAvailable) ∧
      ((if (F.land 32768 != 0) = true then getResponseCode (F.land 15)
        else none) = m.respCode) := by
    rcases wfResp_spec hresp with hrnone | ⟨rc, c, hrc, hgetrc, hc16, hbackrc⟩
    · obtain ⟨h1, h2, h3, h4⟩ :=
        flagsWord_none_spec m.recurseDesired m.recurseAvailable
      refine ⟨flagsWord none m.recurseDesired m.recurseAvailable, ?_, h1, h3,
        h4, ?_⟩
      · rw [hrnone]
        rfl
      · rw [h2, if_neg (by simp), hrnone]
    · obtain ⟨h1, h2, h3, h4, h5⟩ :=
        flagsWord_some_spec c hc16 m.recurseDesired m.recurseAvailable
      refine ⟨flagsWord (some c) m.recurseDesired m.recurseAvailable, ?_, h1,
        h3, h4, ?_⟩
      · rw [hrc, buildFlags]
        simp only [hgetrc, Option.map_some']
        rfl
      · rw [h2, if_pos rfl, h5, hbackrc, hrc]
  obtain ⟨F, hbf, hflt, hb256, hb128, hbresp⟩ := hflags
  have hidb : packH m.id = some [m.id / 256, m.id % 256] := by
    rw [packH, if_pos hid]
  have hflb : packH F = some [F / 256, F % 256] := by
    rw [packH, if_pos hflt]
  have hcq : packH m.questions.length =
      some [m.questions.length / 256, m.questions.length % 256] := by
    rw [packH, if_pos hqc]
  have hca : packH m.answers.length =
      some [m.answers.length / 256, m.answers.length % 256] := by
    rw [packH, if_pos hac]
  have hcu : packH m.authority.length =
      some [m.authority.length / 256, m.authority.length % 256] := by
    rw [packH, if_pos huc]
  have hcd : packH m.additional.length =
      some [m.additional.length / 256, m.additional.length % 256] := by
    rw [packH, if_pos hdc]
  have hpay : m.payload = some (m.id / 256 :: m.id % 256 :: F / 256 :: F % 256 ::
      m.questions.length / 256 :: m.questions.length % 256 ::
      m.answers.length / 256 :: m.answers.length % 256 ::
      m.authority.length / 256 :: m.authority.length % 256 ::
      m.additional.length / 256 :: m.additional.length % 256 ::
      (qenc ++ (aenc ++ (uenc ++ denc)))) := by
    rw [DNSMessage.payload]
    simp [hidb, hbf, hflb, hcq, hca, hcu, hcd, hqenc, haenc, huenc, hdenc]
  refine ⟨m.id / 256 :: m.id % 256 :: F / 256 :: F % 256 ::
      m.questions.length / 256 :: m.questions.length % 256 ::
      m.answers.length / 256 :: m.answers.length % 256 ::
      m.authority.length / 256 :: m.authority.length % 256 ::
      m.additional.length / 256 :: m.additional.length % 256 ::
      (qenc ++ (aenc ++ (uenc ++ denc))), hpay, ?_⟩
  intro now' fuel hfuel
  set B := m.id / 256 :: m.id % 256 :: F / 256 :: F % 256 ::
      m.questions.length / 256 :: m.questions.length % 256 ::
      m.answers.length / 256 :: m.answers.length % 256 ::
      m.authority.length / 256 :: m.authority.length % 256 ::
      m.additional.length / 256 :: m.additional.length % 256 ::
      (qenc ++ (aenc ++ (uenc ++ denc))) with hB
  have hbl : B.length =
      12 + (qenc.length + (aenc.length + (uenc.length + denc.length))) := by
    rw [hB]
    simp only [List.length_cons, List.length_append]
    omega
  rw [hbl] at hfuel
  rw [DNSMessage.fromMessage]
  have ht4 : B.take 4 = [m.id / 256, m.id % 256, F / 256, F % 256] := by
    rw [hB]
    rfl
  simp only [ht4]
  have ht8 : (B.drop 4).take 8 = [m.questions.length / 256,
      m.questions.length % 256, m.answers.length / 256, m.answers.length % 256,
      m.authority.length / 256, m.authority.length % 256,
      m.additional.length / 256, m.additional.length % 256] := by
    rw [hB]
    rfl
  simp only [ht8]
  have hidrt : m.id / 256 * 256 + m.id % 256 = m.id := by omega
  have hfrt : F / 256 * 256 + F % 256 = F := by omega
  have hqlrt : m.questions.length / 256 * 256 + m.questions.length % 256 =
      m.questions.length := by omega
  have halrt : m.answers.length / 256 * 256 + m.answers.length % 256 =
      m.answers.length := by omega
  have hulrt : m.authority.length / 256 * 256 + m.authority.length % 256 =
      m.authority.length := by omega
  have hdlrt : m.additional.length / 256 * 256 + m.additional.length % 256 =
      m.additional.length := by omega
  simp only [hidrt, hfrt, hqlrt, halrt, hulrt, hdlrt]
  have hd0 : B.drop 12 = qenc ++ (aenc ++ (uenc ++ denc)) := by
    rw [hB]
    rfl
  have hqdec' := hqdec now' fuel (aenc ++ (uenc ++ denc)) (by omega)
  simp only [hd0, hqdec']
  have hd1 : B.drop (12 + qenc.length) = aenc ++ (uenc ++ denc) := by
    rw [hB]
    show ([m.id / 256, m.id % 256, F / 256, F % 256,
      m.questions.length / 256, m.questions.length % 256,
      m.answers.length / 256, m.answers.length % 256,
      m.authority.length / 256, m.authority.length % 256,
      m.additional.length / 256, m.additional.length % 256] ++
      (qenc ++ (aenc ++ (uenc ++ denc)))).drop (12 + qenc.length) =
      aenc ++ (uenc ++ denc)
    have e : 12 + qenc.length = ([m.id / 256, m.id % 256, F / 256, F % 256,
      m.questions.length / 256, m.questions.length % 256,
      m.answers.length / 256, m.answers.length % 256,
      m.authority.length / 256, m.authority.length % 256,
      m.additional.length / 256,
      m.additional.length % 256] : List Nat).length + qenc.length := by
      simp
    rw [e, drop_append_add, List.drop_left]
  have hadec' := hadec now' fuel (uenc ++ denc) (some B) (by omega)
  simp only [hd1, hadec']
  have hd2 : B.drop (12 + qenc.length + aenc.length) = uenc ++ denc := by
    rw [hB]
    show ([m.id / 256, m.id % 256, F / 256, F % 256,
      m.questions.length / 256, m.questions.length % 256,
      m.answers.length / 256, m.answers.length % 256,
      m.authority.length / 256, m.authority.length % 256,
      m.additional.length / 256, m.additional.length % 256] ++
      (qenc ++ (aenc ++ (uenc ++ denc)))).drop (12 + qenc.length + aenc.length) =
      uenc ++ denc
    have e : 12 + qenc.length + aenc.length =
        ([m.id / 256, m.id % 256, F / 256, F % 256,
      m.questions.length / 256, m.questions.length % 256,
      m.answers.length / 256, m.answers.length % 256,
      m.authority.length / 256, m.authority.length % 256,
      m.additional.length / 256,
      m.additional.length % 256] : List Nat).length +
        (qenc.length + aenc.length) := by
      simp
      omega
    rw [e, drop_append_add, drop_append_add, List.drop_left]
  have hudec' := hudec now' fuel denc (some B) (by omega)
  simp only [hd2, hudec']
  have hd3 : B.drop (12 + qenc.length + aenc.length + uenc.length) = denc := by
    rw [hB]
    show ([m.id / 256, m.id % 256, F / 256, F % 256,
      m.questions.length / 256, m.questions.length % 256,
      m.answers.length / 256, m.answers.length % 256,
      m.authority.length / 256, m.authority.length % 256,
      m.additional.length / 256, m.additional.length % 256] ++
      (qenc ++ (aenc ++ (uenc ++ denc)))).drop
        (12 + qenc.length + aenc.length + uenc.length) = denc
    have e : 12 + qenc.length + aenc.length + uenc.length =
        ([m.id / 256, m.id % 256, F / 256, F % 256,
      m.questions.length / 256, m.questions.length % 256,
      m.answers.length / 256, m.answers.length % 256,
      m.authority.length / 256, m.authority.length % 256,
      m.additional.length / 256,
      m.additional.length % 256] : List Nat).length +
        (qenc.length + (aenc.length + uenc.length)) := by
      simp
      omega
    rw [e, drop_append_add, drop_append_add, drop_append_add, List.drop_left]
  have hddecd := hddec now' fuel [] (some B) (by omega)
  rw [List.append_nil] at hddecd
  simp only [hd3, hddecd]
  simp only [hbresp, hb256, hb128]

/-- A concrete well-formed response message: one A question and one A answer. -/
def c2wfDemoMsg : DNSMessage :=
  ⟨257, some "NOERROR".toList, true, true,
   [⟨some "A".toList, "example.com".toList, none, -1, 0⟩],
   [⟨some "A".toList, "example.com".toList, some "1.2.3.4".toList, 60, 0⟩],
   [], []⟩

/-- C2 (witness): the amended round-trip theorem applied to a concrete
    well-formed response message. -/
theorem claim_C2_witness :
    c2wfDemoMsg.wellFormed = true ∧
    ∃ bs, c2wfDemoMsg.payload = some bs ∧
      ∀ (now' : Int) (fuel : Nat), bs.length ≤ fuel →
        DNSMessage.fromMessage now' fuel bs =
          some ⟨c2wfDemoMsg.id, c2wfDemoMsg.respCode,
            c2wfDemoMsg.recurseDesired, c2wfDemoMsg.recurseAvailable,
            c2wfDemoMsg.questions.map
              (fun q => ⟨q.recordType, q.name, none, -1, now'⟩),
            c2wfDemoMsg.answers.map
              (fun x => ⟨x.recordType, x.name, x.value, x.ttl, now'⟩),
            c2wfDemoMsg.authority.map
              (fun x => ⟨x.recordType, x.name, x.value, x.ttl, now'⟩),
            c2wfDemoMsg.additional.map
              (fun x => ⟨x.recordType, x.name, x.value, x.ttl, now'⟩)⟩ :=
  ⟨by decide, claim_C2_amended (by decide)⟩
